import Mathlib

/-!
# Attitude conversions of `src/common/rotation.h`

A shallow embedding of the static member functions of `class Rotation` and
theorems about them.  Doubles are modelled by exact numbers: the algebraic
helpers are written over an arbitrary commutative ring (so they can be run
on `ℤ` or `ℚ`), the functions that call `sqrt`, `sin`, `cos`, `atan`,
`atan2` or compare against `M_PI` are written over `ℝ`.
-/

namespace Rotation

open Matrix

/-! ## Data model -/

/-- Counterpart of `Eigen::Quaterniond`: scalar part `w`, vector part `(x, y, z)`. -/
structure Quaterniond (R : Type) where
  w : R
  x : R
  y : R
  z : R

namespace Quaterniond

variable {R : Type}

/-- Counterpart of `q.vec()`: the vector part `(x, y, z)`. -/
def vec (q : Quaterniond R) : Fin 3 → R := ![q.x, q.y, q.z]

/-- The scalar-first 4-vector `(w, x, y, z)` of a quaternion. -/
def toVec4 (q : Quaterniond R) : Fin 4 → R := ![q.w, q.x, q.y, q.z]

/-- Componentwise negation `−q`. -/
def neg [Neg R] (q : Quaterniond R) : Quaterniond R := ⟨-q.w, -q.x, -q.y, -q.z⟩

/-- Squared norm `w² + x² + y² + z²`. -/
def normSq [Add R] [Mul R] (q : Quaterniond R) : R :=
  q.w * q.w + q.x * q.x + q.y * q.y + q.z * q.z

/-- The Hamilton product written the way the specification states it: scalar
part `qw·pw − qv·pv`, vector part `qw·pv + pw·qv + qv × pv`. -/
def hamilton [CommRing R] (q p : Quaterniond R) : Quaterniond R :=
  let s : R := q.w * p.w - q.vec ⬝ᵥ p.vec
  let v : Fin 3 → R := q.w • p.vec + p.w • q.vec + crossProduct q.vec p.vec
  ⟨s, v 0, v 1, v 2⟩

end Quaterniond

/-! ## Algebraic helpers (`rotation.h` lines 95-129) -/

section Helpers

variable {R : Type} [CommRing R]

/-- Embedding of `Rotation::skewSymmetric`: the comma initialiser fills the matrix row by row
with `0, -v(2), v(1), v(2), 0, -v(0), -v(1), v(0), 0`. -/
def skewSymmetric (vector : Fin 3 → R) : Matrix (Fin 3) (Fin 3) R :=
  !![0, -vector 2, vector 1;
     vector 2, 0, -vector 0;
     -vector 1, vector 0, 0]

/-- Assembly of a 4×4 matrix from the four blocks the source writes into: the corner `(0,0)`,
the row block `block<1,3>(0,1)`, the column block `block<3,1>(1,0)` and the square block
`block<3,3>(1,1)`. -/
def fromBlocks4 (corner : R) (row col : Fin 3 → R) (blk : Matrix (Fin 3) (Fin 3) R) :
    Matrix (Fin 4) (Fin 4) R :=
  Matrix.of (vecCons (vecCons corner row) (fun i => vecCons (col i) (blk i)))

/-- Embedding of `Rotation::quaternionleft`. -/
def quaternionleft (q : Quaterniond R) : Matrix (Fin 4) (Fin 4) R :=
  fromBlocks4 q.w (-q.vec) q.vec (q.w • (1 : Matrix (Fin 3) (Fin 3) R) + skewSymmetric q.vec)

/-- Embedding of `Rotation::quaternionright`. -/
def quaternionright (p : Quaterniond R) : Matrix (Fin 4) (Fin 4) R :=
  fromBlocks4 p.w (-p.vec) p.vec (p.w • (1 : Matrix (Fin 3) (Fin 3) R) - skewSymmetric p.vec)

end Helpers

/-- Embedding of `Rotation::heading`: the argument is updated in place and returned; the
embedding returns the new value. `M_PI` is `Real.pi`. -/
noncomputable def heading (heading : ℝ) : ℝ :=
  if heading < -Real.pi then heading + 2 * Real.pi
  else if heading > Real.pi then heading - 2 * Real.pi
  else heading

/-! ## Library functions the source calls (libm and Eigen) -/

/-- Modelled from the spec: libm's `atan2(y, x)` is not under `src/`; this is the C function on
exact reals, with range `(-π, π]`, `atan2 0 x = π` for `x < 0` and `atan2 0 0 = 0`. -/
noncomputable def atan2 (y x : ℝ) : ℝ :=
  if 0 < x then Real.arctan (y / x)
  else if x < 0 then
    if 0 ≤ y then Real.arctan (y / x) + Real.pi else Real.arctan (y / x) - Real.pi
  else if 0 < y then Real.pi / 2
  else if y < 0 then -(Real.pi / 2)
  else 0

/-- Modelled from the spec: the double expression `atan(num / den)` with `den ≥ +0`, on exact
reals. A nonzero numerator over a zero denominator is `±∞` in IEEE arithmetic and its arc tangent
is `±π/2`; `0 / 0` is NaN, reported as `none`. -/
noncomputable def atanQuot (num den : ℝ) : Option ℝ :=
  if den = 0 then
    if 0 < num then some (Real.pi / 2)
    else if num < 0 then some (-(Real.pi / 2))
    else none
  else some (Real.arctan (num / den))

/-- Counterpart of `Eigen::AngleAxisd`: an angle in radians and an axis. -/
structure AngleAxisd where
  angle : ℝ
  axis : Fin 3 → ℝ

/-- Modelled from the spec: Eigen's quaternion product is library code not under `src/`; this is
its coefficient formula. -/
def Quaterniond.mul {R : Type} [CommRing R] (a b : Quaterniond R) : Quaterniond R :=
  ⟨a.w * b.w - a.x * b.x - a.y * b.y - a.z * b.z,
   a.w * b.x + a.x * b.w + a.y * b.z - a.z * b.y,
   a.w * b.y + a.y * b.w + a.z * b.x - a.x * b.z,
   a.w * b.z + a.z * b.w + a.x * b.y - a.y * b.x⟩

/-- Modelled from the spec: Eigen's conversion of an angle-axis pair to a quaternion is library
code not under `src/`: scalar part `cos (angle / 2)`, vector part `sin (angle / 2)` times the
axis. -/
noncomputable def AngleAxisd.toQuaternion (aa : AngleAxisd) : Quaterniond ℝ :=
  let ha : ℝ := 0.5 * aa.angle
  ⟨Real.cos ha, Real.sin ha * aa.axis 0, Real.sin ha * aa.axis 1, Real.sin ha * aa.axis 2⟩

/-- Modelled from the spec: Eigen's `toRotationMatrix` is library code not under `src/`; this is
its coefficient formula. -/
def toRotationMatrix {R : Type} [CommRing R] (q : Quaterniond R) : Matrix (Fin 3) (Fin 3) R :=
  let tx := 2 * q.x
  let ty := 2 * q.y
  let tz := 2 * q.z
  let twx := tx * q.w
  let twy := ty * q.w
  let twz := tz * q.w
  let txx := tx * q.x
  let txy := ty * q.x
  let txz := tz * q.x
  let tyy := ty * q.y
  let tyz := tz * q.y
  let tzz := tz * q.z
  !![1 - (tyy + tzz), txy - twz, txz + twy;
     txy + twz, 1 - (txx + tzz), tyz - twx;
     txz - twy, tyz + twx, 1 - (txx + tyy)]

/-- Modelled from the spec: Eigen's construction of a quaternion from a 3×3 matrix is library
code not under `src/`: when the trace is positive the scalar part is taken from it, otherwise
the largest diagonal entry `i` selects the coefficient computed from a square root, with
`j = (i+1) % 3` and `k = (j+1) % 3`. The theorems below only use it where the square roots have
nonnegative arguments and the divisors are nonzero. -/
noncomputable def quaternionOfMatrix (mat : Matrix (Fin 3) (Fin 3) ℝ) : Quaterniond ℝ :=
  let t : ℝ := Matrix.trace mat
  if t > 0 then
    let r : ℝ := Real.sqrt (t + 1)
    let s : ℝ := 0.5 / r
    ⟨0.5 * r, (mat 2 1 - mat 1 2) * s, (mat 0 2 - mat 2 0) * s, (mat 1 0 - mat 0 1) * s⟩
  else
    let i0 : Fin 3 := if mat 1 1 > mat 0 0 then 1 else 0
    let i : Fin 3 := if mat 2 2 > mat i0 i0 then 2 else i0
    let j : Fin 3 := i + 1
    let k : Fin 3 := j + 1
    let r : ℝ := Real.sqrt (mat i i - mat j j - mat k k + 1)
    let s : ℝ := 0.5 / r
    let c : Fin 3 → ℝ := fun n =>
      if n = i then 0.5 * r
      else if n = j then (mat j i + mat i j) * s
      else if n = k then (mat k i + mat i k) * s
      else 0
    ⟨(mat k j - mat j k) * s, c 0, c 1, c 2⟩

/-- Modelled from the spec: Eigen's `norm()` of a 3-vector is library code not under `src/`: the
square root of the sum of the squared coefficients. -/
noncomputable def norm3 (v : Fin 3 → ℝ) : ℝ :=
  Real.sqrt (v 0 * v 0 + v 1 * v 1 + v 2 * v 2)

/-- Modelled from the spec: Eigen's `normalized()` is library code not under `src/`: the vector
divided by the square root of its squared norm when that is positive, the vector itself
otherwise. -/
noncomputable def normalized (v : Fin 3 → ℝ) : Fin 3 → ℝ :=
  let z : ℝ := v 0 * v 0 + v 1 * v 1 + v 2 * v 2
  if z > 0 then fun i => v i / Real.sqrt z else v

/-- Modelled from the spec: Eigen's construction of an angle-axis pair from a quaternion is
library code not under `src/`: with `n` the norm of the vector part, the angle is
`2 * atan2(n, |w|)` and the axis is the vector part divided by `n`, negated when `w < 0`; when
`n = 0` the angle is `0` and the axis is `(1, 0, 0)`. -/
noncomputable def AngleAxisd.ofQuaternion (q : Quaterniond ℝ) : AngleAxisd :=
  let n : ℝ := norm3 q.vec
  if n ≠ 0 then
    ⟨2 * atan2 n |q.w|, fun i => q.vec i / (if q.w < 0 then -n else n)⟩
  else
    ⟨0, ![1, 0, 0]⟩

/-! ## Representation conversions (`rotation.h` lines 29-93) -/

/-- Embedding of `Rotation::matrix2quaternion`. -/
noncomputable def matrix2quaternion (matrix : Matrix (Fin 3) (Fin 3) ℝ) : Quaterniond ℝ :=
  quaternionOfMatrix matrix

/-- Embedding of `Rotation::quaternion2matrix`. -/
def quaternion2matrix {R : Type} [CommRing R] (quaternion : Quaterniond R) :
    Matrix (Fin 3) (Fin 3) R :=
  toRotationMatrix quaternion

/-- Embedding of `Rotation::matrix2euler`. The result is `none` exactly when the pitch
expression is NaN; `0.999` and `M_PI` are the exact reals. -/
noncomputable def matrix2euler (dcm : Matrix (Fin 3) (Fin 3) ℝ) : Option (Fin 3 → ℝ) :=
  (atanQuot (-dcm 2 0) (Real.sqrt (dcm 2 1 * dcm 2 1 + dcm 2 2 * dcm 2 2))).map fun pitch =>
    let rh : ℝ × ℝ :=
      if dcm 2 0 ≤ -0.999 then
        (atan2 (dcm 2 1) (dcm 2 2), atan2 (dcm 1 2 - dcm 0 1) (dcm 0 2 + dcm 1 1))
      else if dcm 2 0 ≥ 0.999 then
        (atan2 (dcm 2 1) (dcm 2 2), Real.pi + atan2 (dcm 1 2 + dcm 0 1) (dcm 0 2 - dcm 1 1))
      else
        (atan2 (dcm 2 1) (dcm 2 2), atan2 (dcm 1 0) (dcm 0 0))
    -- heading 0~2PI
    let h : ℝ := if rh.2 < 0 then Real.pi * 2 + rh.2 else rh.2
    ![rh.1, pitch, h]

/-- Embedding of `Rotation::quaternion2euler`. -/
noncomputable def quaternion2euler (quaternion : Quaterniond ℝ) : Option (Fin 3 → ℝ) :=
  matrix2euler (toRotationMatrix quaternion)

/-- Embedding of `Rotation::rotvec2quaternion`. -/
noncomputable def rotvec2quaternion (rotvec : Fin 3 → ℝ) : Quaterniond ℝ :=
  let angle : ℝ := norm3 rotvec
  let vec : Fin 3 → ℝ := normalized rotvec
  AngleAxisd.toQuaternion ⟨angle, vec⟩

/-- Embedding of `Rotation::quaternion2vector`. -/
noncomputable def quaternion2vector (quaternion : Quaterniond ℝ) : Fin 3 → ℝ :=
  let axisd : AngleAxisd := AngleAxisd.ofQuaternion quaternion
  fun i => axisd.angle * axisd.axis i

/-- The unit vectors `Eigen::Vector3d::UnitX()`, `UnitY()`, `UnitZ()`. -/
def unitX : Fin 3 → ℝ := ![1, 0, 0]

def unitY : Fin 3 → ℝ := ![0, 1, 0]

def unitZ : Fin 3 → ℝ := ![0, 0, 1]

/-- Embedding of `Rotation::euler2quaternion`: in Eigen the product of two angle-axis values is
the product of their quaternions, taken left to right. -/
noncomputable def euler2quaternion (euler : Fin 3 → ℝ) : Quaterniond ℝ :=
  ((AngleAxisd.toQuaternion ⟨euler 2, unitZ⟩).mul (AngleAxisd.toQuaternion ⟨euler 1, unitY⟩)).mul
    (AngleAxisd.toQuaternion ⟨euler 0, unitX⟩)

/-- Embedding of `Rotation::euler2matrix`: the same product of angle-axis values, which Eigen
evaluates to a quaternion, converted to a matrix by `toRotationMatrix`. -/
noncomputable def euler2matrix (euler : Fin 3 → ℝ) : Matrix (Fin 3) (Fin 3) ℝ :=
  toRotationMatrix
    (((AngleAxisd.toQuaternion ⟨euler 2, unitZ⟩).mul
      (AngleAxisd.toQuaternion ⟨euler 1, unitY⟩)).mul (AngleAxisd.toQuaternion ⟨euler 0, unitX⟩))

/-! ## Predicates and reference matrices used in the statements -/

/-- A proper rotation matrix: orthonormal with determinant `+1`. -/
def IsProperRotation (m : Matrix (Fin 3) (Fin 3) ℝ) : Prop :=
  m.transpose * m = 1 ∧ m.det = 1

/-- The elementary rotation about the X axis. -/
noncomputable def rotX (a : ℝ) : Matrix (Fin 3) (Fin 3) ℝ :=
  !![1, 0, 0; 0, Real.cos a, -Real.sin a; 0, Real.sin a, Real.cos a]

/-- The elementary rotation about the Y axis. -/
noncomputable def rotY (a : ℝ) : Matrix (Fin 3) (Fin 3) ℝ :=
  !![Real.cos a, 0, Real.sin a; 0, 1, 0; -Real.sin a, 0, Real.cos a]

/-- The elementary rotation about the Z axis. -/
noncomputable def rotZ (a : ℝ) : Matrix (Fin 3) (Fin 3) ℝ :=
  !![Real.cos a, -Real.sin a, 0; Real.sin a, Real.cos a, 0; 0, 0, 1]

/-- The homogeneous quaternion-to-matrix map, which agrees with `toRotationMatrix` on unit
quaternions and is multiplicative on all quaternions. -/
def rotHom {R : Type} [CommRing R] (q : Quaterniond R) : Matrix (Fin 3) (Fin 3) R :=
  !![q.w * q.w + q.x * q.x - q.y * q.y - q.z * q.z, 2 * (q.x * q.y - q.w * q.z),
       2 * (q.x * q.z + q.w * q.y);
     2 * (q.x * q.y + q.w * q.z), q.w * q.w - q.x * q.x + q.y * q.y - q.z * q.z,
       2 * (q.y * q.z - q.w * q.x);
     2 * (q.x * q.z - q.w * q.y), 2 * (q.y * q.z + q.w * q.x),
       q.w * q.w - q.x * q.x - q.y * q.y + q.z * q.z]

/-! ## Entrywise forms of the operator matrices -/

theorem quaternionleft_eq {R : Type} [CommRing R] (q : Quaterniond R) :
    quaternionleft q =
      !![q.w, -q.x, -q.y, -q.z;
         q.x, q.w, -q.z, q.y;
         q.y, q.z, q.w, -q.x;
         q.z, -q.y, q.x, q.w] := by
  ext i j
  fin_cases i <;> fin_cases j <;>
    simp [quaternionleft, fromBlocks4, skewSymmetric, Quaterniond.vec, vecHead, vecTail,
      Matrix.one_apply]

theorem quaternionright_eq {R : Type} [CommRing R] (p : Quaterniond R) :
    quaternionright p =
      !![p.w, -p.x, -p.y, -p.z;
         p.x, p.w, p.z, -p.y;
         p.y, -p.z, p.w, p.x;
         p.z, p.y, -p.x, p.w] := by
  ext i j
  fin_cases i <;> fin_cases j <;>
    simp [quaternionright, fromBlocks4, skewSymmetric, Quaterniond.vec, vecHead, vecTail,
      Matrix.one_apply]

/-! ## Quaternion products and rotation matrices -/

theorem normSq_mul {R : Type} [CommRing R] (a b : Quaterniond R) :
    (a.mul b).normSq = a.normSq * b.normSq := by
  simp only [Quaterniond.mul, Quaterniond.normSq]
  ring

theorem toRotationMatrix_eq_rotHom {R : Type} [CommRing R] (q : Quaterniond R)
    (h : q.normSq = 1) : toRotationMatrix q = rotHom q := by
  simp only [Quaterniond.normSq] at h
  ext i j
  fin_cases i <;> fin_cases j <;> simp [toRotationMatrix, rotHom] <;>
    first
      | ring1
      | linear_combination (-1 : R) * h

theorem rotHom_mul {R : Type} [CommRing R] (a b : Quaterniond R) :
    rotHom (a.mul b) = rotHom a * rotHom b := by
  ext i j
  fin_cases i <;> fin_cases j <;>
    simp [rotHom, Quaterniond.mul, Matrix.mul_apply, Fin.sum_univ_three] <;> ring

theorem toRotationMatrix_mul {R : Type} [CommRing R] (a b : Quaterniond R)
    (ha : a.normSq = 1) (hb : b.normSq = 1) :
    toRotationMatrix (a.mul b) = toRotationMatrix a * toRotationMatrix b := by
  have hab : (a.mul b).normSq = 1 := by rw [normSq_mul, ha, hb, one_mul]
  rw [toRotationMatrix_eq_rotHom _ hab, toRotationMatrix_eq_rotHom _ ha,
    toRotationMatrix_eq_rotHom _ hb, rotHom_mul]

theorem cos_eq_half (a : ℝ) : Real.cos a = 2 * Real.cos (0.5 * a) ^ 2 - 1 := by
  rw [← Real.cos_two_mul]
  congr 1
  ring

theorem sin_eq_half (a : ℝ) : Real.sin a = 2 * Real.sin (0.5 * a) * Real.cos (0.5 * a) := by
  rw [← Real.sin_two_mul]
  congr 1
  ring

theorem normSq_unitX (a : ℝ) : (AngleAxisd.toQuaternion ⟨a, unitX⟩).normSq = 1 := by
  simp [AngleAxisd.toQuaternion, Quaterniond.normSq, unitX]
  linear_combination Real.cos_sq_add_sin_sq (0.5 * a)

theorem normSq_unitY (a : ℝ) : (AngleAxisd.toQuaternion ⟨a, unitY⟩).normSq = 1 := by
  simp [AngleAxisd.toQuaternion, Quaterniond.normSq, unitY]
  linear_combination Real.cos_sq_add_sin_sq (0.5 * a)

theorem normSq_unitZ (a : ℝ) : (AngleAxisd.toQuaternion ⟨a, unitZ⟩).normSq = 1 := by
  simp [AngleAxisd.toQuaternion, Quaterniond.normSq, unitZ]
  linear_combination Real.cos_sq_add_sin_sq (0.5 * a)

theorem toRotationMatrix_unitX (a : ℝ) :
    toRotationMatrix (AngleAxisd.toQuaternion ⟨a, unitX⟩) = rotX a := by
  have hs := Real.cos_sq_add_sin_sq (0.5 * a)
  ext i j
  fin_cases i <;> fin_cases j <;>
    simp [toRotationMatrix, AngleAxisd.toQuaternion, rotX, unitX, cos_eq_half a, sin_eq_half a] <;>
    linear_combination (-2 : ℝ) * hs

theorem toRotationMatrix_unitY (a : ℝ) :
    toRotationMatrix (AngleAxisd.toQuaternion ⟨a, unitY⟩) = rotY a := by
  have hs := Real.cos_sq_add_sin_sq (0.5 * a)
  ext i j
  fin_cases i <;> fin_cases j <;>
    simp [toRotationMatrix, AngleAxisd.toQuaternion, rotY, unitY, cos_eq_half a, sin_eq_half a] <;>
    linear_combination (-2 : ℝ) * hs

theorem toRotationMatrix_unitZ (a : ℝ) :
    toRotationMatrix (AngleAxisd.toQuaternion ⟨a, unitZ⟩) = rotZ a := by
  have hs := Real.cos_sq_add_sin_sq (0.5 * a)
  ext i j
  fin_cases i <;> fin_cases j <;>
    simp [toRotationMatrix, AngleAxisd.toQuaternion, rotZ, unitZ, cos_eq_half a, sin_eq_half a] <;>
    linear_combination (-2 : ℝ) * hs

theorem euler2matrix_eq_mul (e : Fin 3 → ℝ) :
    euler2matrix e = rotZ (e 2) * rotY (e 1) * rotX (e 0) := by
  unfold euler2matrix
  rw [toRotationMatrix_mul _ _ (by rw [normSq_mul, normSq_unitZ, normSq_unitY, one_mul])
      (normSq_unitX _),
    toRotationMatrix_mul _ _ (normSq_unitZ _) (normSq_unitY _),
    toRotationMatrix_unitX, toRotationMatrix_unitY, toRotationMatrix_unitZ]

theorem euler2matrix_entries (e : Fin 3 → ℝ) :
    euler2matrix e =
      !![Real.cos (e 2) * Real.cos (e 1),
           Real.cos (e 2) * Real.sin (e 1) * Real.sin (e 0) - Real.sin (e 2) * Real.cos (e 0),
           Real.cos (e 2) * Real.sin (e 1) * Real.cos (e 0) + Real.sin (e 2) * Real.sin (e 0);
         Real.sin (e 2) * Real.cos (e 1),
           Real.sin (e 2) * Real.sin (e 1) * Real.sin (e 0) + Real.cos (e 2) * Real.cos (e 0),
           Real.sin (e 2) * Real.sin (e 1) * Real.cos (e 0) - Real.cos (e 2) * Real.sin (e 0);
         -Real.sin (e 1), Real.cos (e 1) * Real.sin (e 0), Real.cos (e 1) * Real.cos (e 0)] := by
  rw [euler2matrix_eq_mul]
  ext i j
  fin_cases i <;> fin_cases j <;>
    simp [rotX, rotY, rotZ, Matrix.mul_apply, Fin.sum_univ_three, vecHead, vecTail] <;> ring

/-! ## Properties of `atan2` -/

theorem atan2_mem_Ioc (y x : ℝ) : -Real.pi < atan2 y x ∧ atan2 y x ≤ Real.pi := by
  have hpi := Real.pi_pos
  have hlo := Real.neg_pi_div_two_lt_arctan (y / x)
  have hhi := Real.arctan_lt_pi_div_two (y / x)
  unfold atan2
  split_ifs with h1 h2 h3 h4 h5
  · exact ⟨by linarith, by linarith⟩
  · have hle : Real.arctan (y / x) ≤ 0 := by
      have := Real.arctan_strictMono.monotone (div_nonpos_of_nonneg_of_nonpos h3 h2.le)
      rwa [Real.arctan_zero] at this
    exact ⟨by linarith, by linarith⟩
  · have hpos : 0 < Real.arctan (y / x) := by
      have := Real.arctan_strictMono (div_pos_of_neg_of_neg (not_le.mp h3) h2)
      rwa [Real.arctan_zero] at this
    exact ⟨by linarith, by linarith⟩
  · exact ⟨by linarith, by linarith⟩
  · exact ⟨by linarith, by linarith⟩
  · exact ⟨by linarith, by linarith⟩

theorem atan2_zero_of_neg {x : ℝ} (hx : x < 0) : atan2 0 x = Real.pi := by
  unfold atan2
  rw [if_neg (not_lt.mpr hx.le), if_pos hx, if_pos le_rfl]
  simp

theorem atan2_zero_zero : atan2 0 0 = 0 := by
  simp [atan2]

/-- The defining property of `atan2`: it recovers the angle `a` in `(-π, π]` of the point
`(r cos a, r sin a)` for every radius `r > 0`. -/
theorem atan2_sin_cos {r a : ℝ} (hr : 0 < r) (hlo : -Real.pi < a) (hhi : a ≤ Real.pi) :
    atan2 (r * Real.sin a) (r * Real.cos a) = a := by
  have hpi := Real.pi_pos
  have hquot : r * Real.sin a / (r * Real.cos a) = Real.tan a := by
    rw [Real.tan_eq_sin_div_cos, mul_div_mul_left _ _ hr.ne.symm]
  unfold atan2
  rcases lt_trichotomy (Real.cos a) 0 with hc | hc | hc
  · -- second and third quadrant
    have hx : r * Real.cos a < 0 := mul_neg_of_pos_of_neg hr hc
    rw [if_neg (not_lt.mpr hx.le), if_pos hx, hquot]
    by_cases hs : 0 ≤ r * Real.sin a
    · rw [if_pos hs]
      have hs' : 0 ≤ Real.sin a := nonneg_of_mul_nonneg_right hs hr
      have ha0 : 0 ≤ a := by
        by_contra hneg
        exact absurd (Real.sin_neg_of_neg_of_neg_pi_lt (not_le.mp hneg) hlo) (not_lt.mpr hs')
      have ha1 : Real.pi / 2 < a := by
        by_contra hle
        exact absurd (Real.cos_nonneg_of_neg_pi_div_two_le_of_le (by linarith) (not_lt.mp hle))
          (not_le.mpr hc)
      rw [← Real.tan_sub_pi, Real.arctan_tan (by linarith) (by linarith)]
      ring
    · rw [if_neg hs]
      have hs' : Real.sin a < 0 := by
        by_contra hge
        exact hs (mul_nonneg hr.le (not_lt.mp hge))
      have ha0 : a < 0 := by
        by_contra hge
        exact absurd (Real.sin_nonneg_of_nonneg_of_le_pi (not_lt.mp hge) hhi) (not_le.mpr hs')
      have ha1 : a < -(Real.pi / 2) := by
        by_contra hge
        exact absurd (Real.cos_nonneg_of_neg_pi_div_two_le_of_le (not_lt.mp hge) (by linarith))
          (not_le.mpr hc)
      rw [← Real.tan_add_pi, Real.arctan_tan (by linarith) (by linarith)]
      ring
  · -- on the vertical axis
    have hx : r * Real.cos a = 0 := by rw [hc, mul_zero]
    have hsq := Real.sin_sq_add_cos_sq a
    rw [hc] at hsq
    rw [hx, if_neg (lt_irrefl _), if_neg (lt_irrefl _)]
    rcases lt_trichotomy (Real.sin a) 0 with hs | hs | hs
    · have hy : r * Real.sin a < 0 := mul_neg_of_pos_of_neg hr hs
      rw [if_neg (not_lt.mpr hy.le), if_pos hy]
      have ha0 : a < 0 := by
        by_contra hge
        exact absurd (Real.sin_nonneg_of_nonneg_of_le_pi (not_lt.mp hge) hhi) (not_le.mpr hs)
      have hcos : Real.cos (-a) = Real.cos (Real.pi / 2) := by
        rw [Real.cos_neg, hc, Real.cos_pi_div_two]
      have := Real.injOn_cos ⟨by linarith, by linarith⟩ ⟨by linarith, by linarith⟩ hcos
      linarith
    · rw [hs] at hsq
      norm_num at hsq
    · have hy : 0 < r * Real.sin a := mul_pos hr hs
      rw [if_pos hy]
      have ha0 : 0 ≤ a := by
        by_contra hneg
        exact absurd (Real.sin_neg_of_neg_of_neg_pi_lt (not_le.mp hneg) hlo) (not_lt.mpr hs.le)
      have hcos : Real.cos a = Real.cos (Real.pi / 2) := by
        rw [hc, Real.cos_pi_div_two]
      have := Real.injOn_cos ⟨ha0, hhi⟩ ⟨by linarith, by linarith⟩ hcos
      linarith
  · -- first and fourth quadrant
    have hx : 0 < r * Real.cos a := mul_pos hr hc
    rw [if_pos hx, hquot]
    have ha1 : a < Real.pi / 2 := by
      by_contra hge
      exact absurd (Real.cos_nonpos_of_pi_div_two_le_of_le (not_lt.mp hge) (by linarith))
        (not_le.mpr hc)
    have ha2 : -(Real.pi / 2) < a := by
      by_contra hle
      have := Real.cos_nonpos_of_pi_div_two_le_of_le (x := -a) (by linarith [not_lt.mp hle])
        (by linarith)
      rw [Real.cos_neg] at this
      exact absurd this (not_le.mpr hc)
    exact Real.arctan_tan ha2 ha1

/-! ## Properties of `matrix2euler` -/

theorem vec3_eta (e : Fin 3 → ℝ) : ![e 0, e 1, e 2] = e := by
  ext i
  fin_cases i <;> rfl

/-- Whatever the input, when `matrix2euler` returns a triple its heading lies in the closed
interval `[0, 2π]`. -/
theorem matrix2euler_heading_le_two_pi (dcm : Matrix (Fin 3) (Fin 3) ℝ) (e : Fin 3 → ℝ)
    (h : matrix2euler dcm = some e) : 0 ≤ e 2 ∧ e 2 ≤ 2 * Real.pi := by
  have hpi := Real.pi_pos
  unfold matrix2euler at h
  rcases Option.map_eq_some'.mp h with ⟨pitch, -, rfl⟩
  have b1 := atan2_mem_Ioc (dcm 1 2 - dcm 0 1) (dcm 0 2 + dcm 1 1)
  have b2 := atan2_mem_Ioc (dcm 1 2 + dcm 0 1) (dcm 0 2 - dcm 1 1)
  have b3 := atan2_mem_Ioc (dcm 1 0) (dcm 0 0)
  simp only [Matrix.cons_val_two, Matrix.tail_cons, Matrix.head_cons]
  split_ifs with c1 c2 c3 c4 c5 <;> simp only [] at * <;>
    constructor <;> linarith [b1.1, b1.2, b2.1, b2.2, b3.1, b3.2]

/-! ## Matrix to quaternion: the branches of Eigen's construction -/

theorem qom_w (m : Matrix (Fin 3) (Fin 3) ℝ) (ht : Matrix.trace m > 0) :
    quaternionOfMatrix m =
      ⟨0.5 * Real.sqrt (Matrix.trace m + 1),
       (m 2 1 - m 1 2) * (0.5 / Real.sqrt (Matrix.trace m + 1)),
       (m 0 2 - m 2 0) * (0.5 / Real.sqrt (Matrix.trace m + 1)),
       (m 1 0 - m 0 1) * (0.5 / Real.sqrt (Matrix.trace m + 1))⟩ := by
  unfold quaternionOfMatrix
  simp only [if_pos ht]

theorem qom_x (m : Matrix (Fin 3) (Fin 3) ℝ) (ht : ¬ Matrix.trace m > 0)
    (h1 : ¬ m 1 1 > m 0 0) (h2 : ¬ m 2 2 > m 0 0) :
    quaternionOfMatrix m =
      ⟨(m 2 1 - m 1 2) * (0.5 / Real.sqrt (m 0 0 - m 1 1 - m 2 2 + 1)),
       0.5 * Real.sqrt (m 0 0 - m 1 1 - m 2 2 + 1),
       (m 1 0 + m 0 1) * (0.5 / Real.sqrt (m 0 0 - m 1 1 - m 2 2 + 1)),
       (m 2 0 + m 0 2) * (0.5 / Real.sqrt (m 0 0 - m 1 1 - m 2 2 + 1))⟩ := by
  unfold quaternionOfMatrix
  dsimp only
  simp only [if_neg ht, if_neg h1, if_neg h2]
  have e1 : (0 : Fin 3) + 1 = 1 := rfl
  have e2 : (1 : Fin 3) + 1 = 2 := rfl
  simp [e1, e2]

theorem qom_y (m : Matrix (Fin 3) (Fin 3) ℝ) (ht : ¬ Matrix.trace m > 0)
    (h1 : m 1 1 > m 0 0) (h2 : ¬ m 2 2 > m 1 1) :
    quaternionOfMatrix m =
      ⟨(m 0 2 - m 2 0) * (0.5 / Real.sqrt (m 1 1 - m 2 2 - m 0 0 + 1)),
       (m 0 1 + m 1 0) * (0.5 / Real.sqrt (m 1 1 - m 2 2 - m 0 0 + 1)),
       0.5 * Real.sqrt (m 1 1 - m 2 2 - m 0 0 + 1),
       (m 2 1 + m 1 2) * (0.5 / Real.sqrt (m 1 1 - m 2 2 - m 0 0 + 1))⟩ := by
  unfold quaternionOfMatrix
  dsimp only
  simp only [if_neg ht, if_pos h1, if_neg h2]
  have e1 : (1 : Fin 3) + 1 = 2 := rfl
  have e2 : (2 : Fin 3) + 1 = 0 := rfl
  simp [e1, e2]

theorem qom_z (m : Matrix (Fin 3) (Fin 3) ℝ) (ht : ¬ Matrix.trace m > 0)
    (h2 : m 2 2 > m (if m 1 1 > m 0 0 then 1 else 0) (if m 1 1 > m 0 0 then 1 else 0)) :
    quaternionOfMatrix m =
      ⟨(m 1 0 - m 0 1) * (0.5 / Real.sqrt (m 2 2 - m 0 0 - m 1 1 + 1)),
       (m 0 2 + m 2 0) * (0.5 / Real.sqrt (m 2 2 - m 0 0 - m 1 1 + 1)),
       (m 1 2 + m 2 1) * (0.5 / Real.sqrt (m 2 2 - m 0 0 - m 1 1 + 1)),
       0.5 * Real.sqrt (m 2 2 - m 0 0 - m 1 1 + 1)⟩ := by
  unfold quaternionOfMatrix
  dsimp only
  simp only [if_neg ht, if_pos h2]
  have e1 : (2 : Fin 3) + 1 = 0 := rfl
  have e2 : (0 : Fin 3) + 1 = 1 := rfl
  simp [e1, e2]

theorem col_orth {m : Matrix (Fin 3) (Fin 3) ℝ} (h : IsProperRotation m) (i j : Fin 3) :
    m 0 i * m 0 j + m 1 i * m 1 j + m 2 i * m 2 j = if i = j then 1 else 0 := by
  have := congrFun (congrFun h.1 i) j
  simpa [Matrix.mul_apply, Fin.sum_univ_three, Matrix.one_apply] using this

theorem row_orth {m : Matrix (Fin 3) (Fin 3) ℝ} (h : IsProperRotation m) (i j : Fin 3) :
    m i 0 * m j 0 + m i 1 * m j 1 + m i 2 * m j 2 = if i = j then 1 else 0 := by
  have h' : m * m.transpose = 1 := Matrix.mul_eq_one_comm.mp h.1
  have := congrFun (congrFun h' i) j
  simpa [Matrix.mul_apply, Fin.sum_univ_three, Matrix.one_apply] using this

theorem adjugate_eq_transpose {m : Matrix (Fin 3) (Fin 3) ℝ} (h : IsProperRotation m) :
    m.adjugate = m.transpose := by
  have h' : m * m.transpose = 1 := Matrix.mul_eq_one_comm.mp h.1
  calc m.adjugate = m.adjugate * (m * m.transpose) := by rw [h', mul_one]
    _ = (m.adjugate * m) * m.transpose := by rw [Matrix.mul_assoc]
    _ = m.transpose := by rw [Matrix.adjugate_mul, h.2, one_smul, one_mul]

/-- Every entry of a proper rotation matrix equals its cofactor. -/
theorem cofactor_eq {m : Matrix (Fin 3) (Fin 3) ℝ} (h : IsProperRotation m) :
    m 0 0 = m 1 1 * m 2 2 - m 1 2 * m 2 1 ∧ m 0 1 = m 1 2 * m 2 0 - m 1 0 * m 2 2
    ∧ m 0 2 = m 1 0 * m 2 1 - m 1 1 * m 2 0 ∧ m 1 0 = m 0 2 * m 2 1 - m 0 1 * m 2 2
    ∧ m 1 1 = m 0 0 * m 2 2 - m 0 2 * m 2 0 ∧ m 1 2 = m 0 1 * m 2 0 - m 0 0 * m 2 1
    ∧ m 2 0 = m 0 1 * m 1 2 - m 0 2 * m 1 1 ∧ m 2 1 = m 0 2 * m 1 0 - m 0 0 * m 1 2
    ∧ m 2 2 = m 0 0 * m 1 1 - m 0 1 * m 1 0 := by
  have ha := adjugate_eq_transpose h
  rw [Matrix.adjugate_fin_three] at ha
  have e := fun i j => congrFun (congrFun ha i) j
  have e00 := e 0 0
  have e01 := e 0 1
  have e02 := e 0 2
  have e10 := e 1 0
  have e11 := e 1 1
  have e12 := e 1 2
  have e20 := e 2 0
  have e21 := e 2 1
  have e22 := e 2 2
  simp [Matrix.transpose_apply] at e00 e01 e02 e10 e11 e12 e20 e21 e22
  refine ⟨?_, ?_, ?_, ?_, ?_, ?_, ?_, ?_, ?_⟩ <;> linarith

/-- The symmetric 4×4 matrix of pairwise products of quaternion coefficients that belongs to a
proper rotation matrix has rank one: these are its vanishing 2×2 minors. -/
theorem rank_one {m : Matrix (Fin 3) (Fin 3) ℝ} (h : IsProperRotation m) :
    (m 2 1 - m 1 2) * (m 2 1 - m 1 2)
        = (1 + m 0 0 + m 1 1 + m 2 2) * (1 + m 0 0 - m 1 1 - m 2 2)
    ∧ (m 0 2 - m 2 0) * (m 0 2 - m 2 0)
        = (1 + m 0 0 + m 1 1 + m 2 2) * (1 - m 0 0 + m 1 1 - m 2 2)
    ∧ (m 1 0 - m 0 1) * (m 1 0 - m 0 1)
        = (1 + m 0 0 + m 1 1 + m 2 2) * (1 - m 0 0 - m 1 1 + m 2 2)
    ∧ (m 2 1 - m 1 2) * (m 0 2 - m 2 0) = (1 + m 0 0 + m 1 1 + m 2 2) * (m 1 0 + m 0 1)
    ∧ (m 2 1 - m 1 2) * (m 1 0 - m 0 1) = (1 + m 0 0 + m 1 1 + m 2 2) * (m 2 0 + m 0 2)
    ∧ (m 0 2 - m 2 0) * (m 1 0 - m 0 1) = (1 + m 0 0 + m 1 1 + m 2 2) * (m 2 1 + m 1 2)
    ∧ (m 1 0 + m 0 1) * (m 1 0 + m 0 1)
        = (1 + m 0 0 - m 1 1 - m 2 2) * (1 - m 0 0 + m 1 1 - m 2 2)
    ∧ (m 2 0 + m 0 2) * (m 2 0 + m 0 2)
        = (1 + m 0 0 - m 1 1 - m 2 2) * (1 - m 0 0 - m 1 1 + m 2 2)
    ∧ (m 2 1 + m 1 2) * (m 2 1 + m 1 2)
        = (1 - m 0 0 + m 1 1 - m 2 2) * (1 - m 0 0 - m 1 1 + m 2 2)
    ∧ (m 1 0 + m 0 1) * (m 2 0 + m 0 2) = (1 + m 0 0 - m 1 1 - m 2 2) * (m 2 1 + m 1 2)
    ∧ (m 1 0 + m 0 1) * (m 2 1 + m 1 2) = (1 - m 0 0 + m 1 1 - m 2 2) * (m 2 0 + m 0 2)
    ∧ (m 2 0 + m 0 2) * (m 2 1 + m 1 2) = (1 - m 0 0 - m 1 1 + m 2 2) * (m 1 0 + m 0 1)
    ∧ (m 2 1 - m 1 2) * (m 1 0 + m 0 1) = (1 + m 0 0 - m 1 1 - m 2 2) * (m 0 2 - m 2 0)
    ∧ (m 2 1 - m 1 2) * (m 2 0 + m 0 2) = (1 + m 0 0 - m 1 1 - m 2 2) * (m 1 0 - m 0 1)
    ∧ (m 0 2 - m 2 0) * (m 1 0 + m 0 1) = (1 - m 0 0 + m 1 1 - m 2 2) * (m 2 1 - m 1 2)
    ∧ (m 0 2 - m 2 0) * (m 2 1 + m 1 2) = (1 - m 0 0 + m 1 1 - m 2 2) * (m 1 0 - m 0 1)
    ∧ (m 1 0 - m 0 1) * (m 2 0 + m 0 2) = (1 - m 0 0 - m 1 1 + m 2 2) * (m 2 1 - m 1 2)
    ∧ (m 1 0 - m 0 1) * (m 2 1 + m 1 2) = (1 - m 0 0 - m 1 1 + m 2 2) * (m 0 2 - m 2 0) := by
  have c00 := col_orth h 0 0
  have c11 := col_orth h 1 1
  have c22 := col_orth h 2 2
  have c01 := col_orth h 0 1
  have c02 := col_orth h 0 2
  have c12 := col_orth h 1 2
  have r00 := row_orth h 0 0
  have r11 := row_orth h 1 1
  have r22 := row_orth h 2 2
  have r01 := row_orth h 0 1
  have r02 := row_orth h 0 2
  have r12 := row_orth h 1 2
  simp only [Fin.reduceEq, if_true, if_false] at c00 c11 c22 c01 c02 c12 r00 r11 r22 r01 r02 r12
  obtain ⟨k00, k01, k02, k10, k11, k12, k20, k21, k22⟩ := cofactor_eq h
  refine ⟨?_, ?_, ?_, ?_, ?_, ?_, ?_, ?_, ?_, ?_, ?_, ?_, ?_, ?_, ?_, ?_, ?_, ?_⟩ <;> linarith

/-- A quaternion whose pairwise coefficient products are the ones read off a matrix is mapped
back to that matrix by `toRotationMatrix`. -/
theorem toRotationMatrix_of_products (q : Quaterniond ℝ) (m : Matrix (Fin 3) (Fin 3) ℝ)
    (hxx : 4 * (q.x * q.x) = 1 + m 0 0 - m 1 1 - m 2 2)
    (hyy : 4 * (q.y * q.y) = 1 - m 0 0 + m 1 1 - m 2 2)
    (hzz : 4 * (q.z * q.z) = 1 - m 0 0 - m 1 1 + m 2 2)
    (hwx : 4 * (q.w * q.x) = m 2 1 - m 1 2)
    (hwy : 4 * (q.w * q.y) = m 0 2 - m 2 0)
    (hwz : 4 * (q.w * q.z) = m 1 0 - m 0 1)
    (hxy : 4 * (q.x * q.y) = m 1 0 + m 0 1)
    (hxz : 4 * (q.x * q.z) = m 2 0 + m 0 2)
    (hyz : 4 * (q.y * q.z) = m 2 1 + m 1 2) :
    toRotationMatrix q = m := by
  ext i j
  fin_cases i <;> fin_cases j <;> simp [toRotationMatrix] <;> linarith

/-- The arithmetic of one branch of `quaternionOfMatrix`: with `r = sqrt n` and `s = 0.5 / r`
for a positive `n`. -/
theorem pivot_products {n : ℝ} (hn : 0 < n) :
    4 * (0.5 * Real.sqrt n * (0.5 * Real.sqrt n)) = n
      ∧ (∀ a : ℝ, 4 * (0.5 * Real.sqrt n * (a * (0.5 / Real.sqrt n))) = a)
      ∧ (∀ a b c : ℝ, a * b = n * c →
          4 * (a * (0.5 / Real.sqrt n) * (b * (0.5 / Real.sqrt n))) = c) := by
  have hr : Real.sqrt n * Real.sqrt n = n := Real.mul_self_sqrt hn.le
  have hr0 : Real.sqrt n ≠ 0 := (Real.sqrt_pos.mpr hn).ne.symm
  refine ⟨?_, ?_, ?_⟩
  · linear_combination hr
  · intro a
    field_simp
    ring
  · intro a b c habc
    have hn0 : n ≠ 0 := hn.ne.symm
    have : 4 * (a * (0.5 / Real.sqrt n) * (b * (0.5 / Real.sqrt n)))
        = a * b / (Real.sqrt n * Real.sqrt n) := by
      field_simp
      ring
    rw [this, hr, habc]
    field_simp


/-- The four branches of `quaternionOfMatrix` on a proper rotation matrix: whichever
coefficient is the pivot, the quaternion built from it is mapped back to the matrix. -/
theorem toRotationMatrix_pivot_w {m : Matrix (Fin 3) (Fin 3) ℝ} (h : IsProperRotation m)
    (hn : 0 < Matrix.trace m + 1) :
    toRotationMatrix
      (⟨0.5 * Real.sqrt (Matrix.trace m + 1),
        (m 2 1 - m 1 2) * (0.5 / Real.sqrt (Matrix.trace m + 1)),
        (m 0 2 - m 2 0) * (0.5 / Real.sqrt (Matrix.trace m + 1)),
        (m 1 0 - m 0 1) * (0.5 / Real.sqrt (Matrix.trace m + 1))⟩ : Quaterniond ℝ) = m := by
  obtain ⟨f1, f2, f3, f4, f5, f6, -⟩ := rank_one h
  have htr := Matrix.trace_fin_three m
  obtain ⟨-, p2, p3⟩ := pivot_products hn
  apply toRotationMatrix_of_products
  · exact p3 (m 2 1 - m 1 2) (m 2 1 - m 1 2) (1 + m 0 0 - m 1 1 - m 2 2)
      (by rw [htr]; linear_combination f1)
  · exact p3 (m 0 2 - m 2 0) (m 0 2 - m 2 0) (1 - m 0 0 + m 1 1 - m 2 2)
      (by rw [htr]; linear_combination f2)
  · exact p3 (m 1 0 - m 0 1) (m 1 0 - m 0 1) (1 - m 0 0 - m 1 1 + m 2 2)
      (by rw [htr]; linear_combination f3)
  · exact p2 (m 2 1 - m 1 2)
  · exact p2 (m 0 2 - m 2 0)
  · exact p2 (m 1 0 - m 0 1)
  · exact p3 (m 2 1 - m 1 2) (m 0 2 - m 2 0) (m 1 0 + m 0 1)
      (by rw [htr]; linear_combination f4)
  · exact p3 (m 2 1 - m 1 2) (m 1 0 - m 0 1) (m 2 0 + m 0 2)
      (by rw [htr]; linear_combination f5)
  · exact p3 (m 0 2 - m 2 0) (m 1 0 - m 0 1) (m 2 1 + m 1 2)
      (by rw [htr]; linear_combination f6)

theorem toRotationMatrix_pivot_x {m : Matrix (Fin 3) (Fin 3) ℝ} (h : IsProperRotation m)
    (hn : 0 < m 0 0 - m 1 1 - m 2 2 + 1) :
    toRotationMatrix
      (⟨(m 2 1 - m 1 2) * (0.5 / Real.sqrt (m 0 0 - m 1 1 - m 2 2 + 1)),
        0.5 * Real.sqrt (m 0 0 - m 1 1 - m 2 2 + 1),
        (m 1 0 + m 0 1) * (0.5 / Real.sqrt (m 0 0 - m 1 1 - m 2 2 + 1)),
        (m 2 0 + m 0 2) * (0.5 / Real.sqrt (m 0 0 - m 1 1 - m 2 2 + 1))⟩ : Quaterniond ℝ) = m := by
  obtain ⟨-, -, -, -, -, -, f7, f8, -, f10, -, -, f13, f14, -⟩ := rank_one h
  obtain ⟨p1, p2, p3⟩ := pivot_products hn
  apply toRotationMatrix_of_products
  · show 4 * (0.5 * Real.sqrt (m 0 0 - m 1 1 - m 2 2 + 1)
        * (0.5 * Real.sqrt (m 0 0 - m 1 1 - m 2 2 + 1))) = _
    linear_combination p1
  · exact p3 (m 1 0 + m 0 1) (m 1 0 + m 0 1) (1 - m 0 0 + m 1 1 - m 2 2)
      (by linear_combination f7)
  · exact p3 (m 2 0 + m 0 2) (m 2 0 + m 0 2) (1 - m 0 0 - m 1 1 + m 2 2)
      (by linear_combination f8)
  · show 4 * ((m 2 1 - m 1 2) * (0.5 / Real.sqrt (m 0 0 - m 1 1 - m 2 2 + 1))
        * (0.5 * Real.sqrt (m 0 0 - m 1 1 - m 2 2 + 1))) = _
    linear_combination p2 (m 2 1 - m 1 2)
  · exact p3 (m 2 1 - m 1 2) (m 1 0 + m 0 1) (m 0 2 - m 2 0) (by linear_combination f13)
  · exact p3 (m 2 1 - m 1 2) (m 2 0 + m 0 2) (m 1 0 - m 0 1) (by linear_combination f14)
  · exact p2 (m 1 0 + m 0 1)
  · exact p2 (m 2 0 + m 0 2)
  · exact p3 (m 1 0 + m 0 1) (m 2 0 + m 0 2) (m 2 1 + m 1 2) (by linear_combination f10)

theorem toRotationMatrix_pivot_y {m : Matrix (Fin 3) (Fin 3) ℝ} (h : IsProperRotation m)
    (hn : 0 < m 1 1 - m 2 2 - m 0 0 + 1) :
    toRotationMatrix
      (⟨(m 0 2 - m 2 0) * (0.5 / Real.sqrt (m 1 1 - m 2 2 - m 0 0 + 1)),
        (m 0 1 + m 1 0) * (0.5 / Real.sqrt (m 1 1 - m 2 2 - m 0 0 + 1)),
        0.5 * Real.sqrt (m 1 1 - m 2 2 - m 0 0 + 1),
        (m 2 1 + m 1 2) * (0.5 / Real.sqrt (m 1 1 - m 2 2 - m 0 0 + 1))⟩ : Quaterniond ℝ) = m := by
  obtain ⟨-, -, -, -, -, -, f7, -, f9, -, f11, -, -, -, f15, f16, -⟩ := rank_one h
  obtain ⟨p1, p2, p3⟩ := pivot_products hn
  apply toRotationMatrix_of_products
  · exact p3 (m 0 1 + m 1 0) (m 0 1 + m 1 0) (1 + m 0 0 - m 1 1 - m 2 2)
      (by linear_combination f7)
  · show 4 * (0.5 * Real.sqrt (m 1 1 - m 2 2 - m 0 0 + 1)
        * (0.5 * Real.sqrt (m 1 1 - m 2 2 - m 0 0 + 1))) = _
    linear_combination p1
  · exact p3 (m 2 1 + m 1 2) (m 2 1 + m 1 2) (1 - m 0 0 - m 1 1 + m 2 2)
      (by linear_combination f9)
  · exact p3 (m 0 2 - m 2 0) (m 0 1 + m 1 0) (m 2 1 - m 1 2) (by linear_combination f15)
  · show 4 * ((m 0 2 - m 2 0) * (0.5 / Real.sqrt (m 1 1 - m 2 2 - m 0 0 + 1))
        * (0.5 * Real.sqrt (m 1 1 - m 2 2 - m 0 0 + 1))) = _
    linear_combination p2 (m 0 2 - m 2 0)
  · exact p3 (m 0 2 - m 2 0) (m 2 1 + m 1 2) (m 1 0 - m 0 1) (by linear_combination f16)
  · show 4 * ((m 0 1 + m 1 0) * (0.5 / Real.sqrt (m 1 1 - m 2 2 - m 0 0 + 1))
        * (0.5 * Real.sqrt (m 1 1 - m 2 2 - m 0 0 + 1))) = _
    linear_combination p2 (m 0 1 + m 1 0)
  · exact p3 (m 0 1 + m 1 0) (m 2 1 + m 1 2) (m 2 0 + m 0 2) (by linear_combination f11)
  · show 4 * (0.5 * Real.sqrt (m 1 1 - m 2 2 - m 0 0 + 1)
        * ((m 2 1 + m 1 2) * (0.5 / Real.sqrt (m 1 1 - m 2 2 - m 0 0 + 1)))) = _
    linear_combination p2 (m 2 1 + m 1 2)

theorem toRotationMatrix_pivot_z {m : Matrix (Fin 3) (Fin 3) ℝ} (h : IsProperRotation m)
    (hn : 0 < m 2 2 - m 0 0 - m 1 1 + 1) :
    toRotationMatrix
      (⟨(m 1 0 - m 0 1) * (0.5 / Real.sqrt (m 2 2 - m 0 0 - m 1 1 + 1)),
        (m 0 2 + m 2 0) * (0.5 / Real.sqrt (m 2 2 - m 0 0 - m 1 1 + 1)),
        (m 1 2 + m 2 1) * (0.5 / Real.sqrt (m 2 2 - m 0 0 - m 1 1 + 1)),
        0.5 * Real.sqrt (m 2 2 - m 0 0 - m 1 1 + 1)⟩ : Quaterniond ℝ) = m := by
  obtain ⟨-, -, -, -, -, -, -, f8, f9, -, -, f12, -, -, -, -, f17, f18⟩ := rank_one h
  obtain ⟨p1, p2, p3⟩ := pivot_products hn
  apply toRotationMatrix_of_products
  · exact p3 (m 0 2 + m 2 0) (m 0 2 + m 2 0) (1 + m 0 0 - m 1 1 - m 2 2)
      (by linear_combination f8)
  · exact p3 (m 1 2 + m 2 1) (m 1 2 + m 2 1) (1 - m 0 0 + m 1 1 - m 2 2)
      (by linear_combination f9)
  · show 4 * (0.5 * Real.sqrt (m 2 2 - m 0 0 - m 1 1 + 1)
        * (0.5 * Real.sqrt (m 2 2 - m 0 0 - m 1 1 + 1))) = _
    linear_combination p1
  · exact p3 (m 1 0 - m 0 1) (m 0 2 + m 2 0) (m 2 1 - m 1 2) (by linear_combination f17)
  · exact p3 (m 1 0 - m 0 1) (m 1 2 + m 2 1) (m 0 2 - m 2 0) (by linear_combination f18)
  · show 4 * ((m 1 0 - m 0 1) * (0.5 / Real.sqrt (m 2 2 - m 0 0 - m 1 1 + 1))
        * (0.5 * Real.sqrt (m 2 2 - m 0 0 - m 1 1 + 1))) = _
    linear_combination p2 (m 1 0 - m 0 1)
  · exact p3 (m 0 2 + m 2 0) (m 1 2 + m 2 1) (m 1 0 + m 0 1) (by linear_combination f12)
  · show 4 * ((m 0 2 + m 2 0) * (0.5 / Real.sqrt (m 2 2 - m 0 0 - m 1 1 + 1))
        * (0.5 * Real.sqrt (m 2 2 - m 0 0 - m 1 1 + 1))) = _
    linear_combination p2 (m 0 2 + m 2 0)
  · show 4 * ((m 1 2 + m 2 1) * (0.5 / Real.sqrt (m 2 2 - m 0 0 - m 1 1 + 1))
        * (0.5 * Real.sqrt (m 2 2 - m 0 0 - m 1 1 + 1))) = _
    linear_combination p2 (m 1 2 + m 2 1)


/-- The arithmetic of one branch of `quaternionOfMatrix` on the matrix of a quaternion whose
pivot coefficient is `p`: the square root recovers `|p|` and every other coefficient comes back
with the sign of `p`. -/
theorem pivot_sign {p n : ℝ} (hp : p ≠ 0) (hn : n = 4 * (p * p)) :
    (0.5 * Real.sqrt n = p ∧ ∀ a c : ℝ, c = 4 * (p * a) → c * (0.5 / Real.sqrt n) = a)
      ∨ (0.5 * Real.sqrt n = -p ∧ ∀ a c : ℝ, c = 4 * (p * a) → c * (0.5 / Real.sqrt n) = -a) := by
  rcases lt_or_gt_of_ne hp with hneg | hpos
  · right
    have hs : Real.sqrt n = -(2 * p) := by
      rw [hn, show 4 * (p * p) = -(2 * p) * -(2 * p) by ring]
      exact Real.sqrt_mul_self (by linarith)
    refine ⟨by rw [hs]; ring, ?_⟩
    intro a c hc
    rw [hs, hc]
    field_simp
    ring
  · left
    have hs : Real.sqrt n = 2 * p := by
      rw [hn, show 4 * (p * p) = 2 * p * (2 * p) by ring]
      exact Real.sqrt_mul_self (by linarith)
    refine ⟨by rw [hs]; ring, ?_⟩
    intro a c hc
    rw [hs, hc]
    field_simp
    ring

/-! ## Proper rotations -/

theorem isProperRotation_mul {a b : Matrix (Fin 3) (Fin 3) ℝ} (ha : IsProperRotation a)
    (hb : IsProperRotation b) : IsProperRotation (a * b) := by
  refine ⟨?_, ?_⟩
  · rw [Matrix.transpose_mul, Matrix.mul_assoc, ← Matrix.mul_assoc a.transpose, ha.1,
      Matrix.one_mul, hb.1]
  · rw [Matrix.det_mul, ha.2, hb.2, one_mul]

theorem isProperRotation_rotX (a : ℝ) : IsProperRotation (rotX a) := by
  have hs := Real.cos_sq_add_sin_sq a
  refine ⟨?_, ?_⟩
  · ext i j
    rw [Matrix.mul_apply, Fin.sum_univ_three]
    simp only [Matrix.transpose_apply, Matrix.one_apply]
    fin_cases i <;> fin_cases j <;>
      simp [rotX, vecHead, vecTail] <;>
      first
        | ring1
        | linear_combination hs
  · simp [rotX, Matrix.det_fin_three, vecHead, vecTail]
    linear_combination hs

theorem isProperRotation_rotY (a : ℝ) : IsProperRotation (rotY a) := by
  have hs := Real.cos_sq_add_sin_sq a
  refine ⟨?_, ?_⟩
  · ext i j
    rw [Matrix.mul_apply, Fin.sum_univ_three]
    simp only [Matrix.transpose_apply, Matrix.one_apply]
    fin_cases i <;> fin_cases j <;>
      simp [rotY, vecHead, vecTail] <;>
      first
        | ring1
        | linear_combination hs
  · simp [rotY, Matrix.det_fin_three, vecHead, vecTail]
    linear_combination hs

theorem isProperRotation_rotZ (a : ℝ) : IsProperRotation (rotZ a) := by
  have hs := Real.cos_sq_add_sin_sq a
  refine ⟨?_, ?_⟩
  · ext i j
    rw [Matrix.mul_apply, Fin.sum_univ_three]
    simp only [Matrix.transpose_apply, Matrix.one_apply]
    fin_cases i <;> fin_cases j <;>
      simp [rotZ, vecHead, vecTail] <;>
      first
        | ring1
        | linear_combination hs
  · simp [rotZ, Matrix.det_fin_three, vecHead, vecTail]
    linear_combination hs

/-! ## Rotation vectors -/

theorem sumSq_pos {v : Fin 3 → ℝ} (hv : v ≠ 0) : 0 < v 0 * v 0 + v 1 * v 1 + v 2 * v 2 := by
  by_contra hneg
  have h0 := mul_self_nonneg (v 0)
  have h1 := mul_self_nonneg (v 1)
  have h2 := mul_self_nonneg (v 2)
  have e0 : v 0 = 0 := mul_self_eq_zero.mp (by linarith)
  have e1 : v 1 = 0 := mul_self_eq_zero.mp (by linarith)
  have e2 : v 2 = 0 := mul_self_eq_zero.mp (by linarith)
  apply hv
  ext i
  fin_cases i
  · exact e0
  · exact e1
  · exact e2

theorem norm3_pos {v : Fin 3 → ℝ} (hv : v ≠ 0) : 0 < norm3 v :=
  Real.sqrt_pos.mpr (sumSq_pos hv)

theorem norm3_mul_self (v : Fin 3 → ℝ) :
    norm3 v * norm3 v = v 0 * v 0 + v 1 * v 1 + v 2 * v 2 := by
  unfold norm3
  exact Real.mul_self_sqrt
    (add_nonneg (add_nonneg (mul_self_nonneg _) (mul_self_nonneg _)) (mul_self_nonneg _))

theorem ne_zero_of_norm3_pos {v : Fin 3 → ℝ} (h : 0 < norm3 v) : v ≠ 0 := by
  intro h0
  rw [h0] at h
  simp [norm3] at h

theorem norm3_vec (q : Quaterniond ℝ) :
    norm3 q.vec = Real.sqrt (q.x * q.x + q.y * q.y + q.z * q.z) := by
  simp [norm3, Quaterniond.vec]

/-- The quaternion `rotvec2quaternion` builds from a nonzero rotation vector. -/
theorem rotvec2quaternion_of_ne_zero {v : Fin 3 → ℝ} (hv : v ≠ 0) :
    rotvec2quaternion v =
      ⟨Real.cos (norm3 v / 2), Real.sin (norm3 v / 2) * (v 0 / norm3 v),
        Real.sin (norm3 v / 2) * (v 1 / norm3 v), Real.sin (norm3 v / 2) * (v 2 / norm3 v)⟩ := by
  have hz := sumSq_pos hv
  have hhalf : (0.5 : ℝ) * norm3 v = norm3 v / 2 := by ring
  unfold rotvec2quaternion normalized AngleAxisd.toQuaternion
  simp only [if_pos hz, hhalf]
  rfl

theorem rotvec2quaternion_normSq {v : Fin 3 → ℝ} (hv : v ≠ 0) :
    (rotvec2quaternion v).normSq = 1 := by
  have ha := norm3_pos hv
  have hsq := norm3_mul_self v
  have hcs := Real.cos_sq_add_sin_sq (norm3 v / 2)
  rw [rotvec2quaternion_of_ne_zero hv]
  simp only [Quaterniond.normSq]
  have key : Real.sin (norm3 v / 2) * (v 0 / norm3 v) * (Real.sin (norm3 v / 2) * (v 0 / norm3 v))
      + Real.sin (norm3 v / 2) * (v 1 / norm3 v) * (Real.sin (norm3 v / 2) * (v 1 / norm3 v))
      + Real.sin (norm3 v / 2) * (v 2 / norm3 v) * (Real.sin (norm3 v / 2) * (v 2 / norm3 v))
      = Real.sin (norm3 v / 2) ^ 2 := by
    have : Real.sin (norm3 v / 2) * (v 0 / norm3 v) * (Real.sin (norm3 v / 2) * (v 0 / norm3 v))
        + Real.sin (norm3 v / 2) * (v 1 / norm3 v) * (Real.sin (norm3 v / 2) * (v 1 / norm3 v))
        + Real.sin (norm3 v / 2) * (v 2 / norm3 v) * (Real.sin (norm3 v / 2) * (v 2 / norm3 v))
        = Real.sin (norm3 v / 2) ^ 2 * ((v 0 * v 0 + v 1 * v 1 + v 2 * v 2)
            / (norm3 v * norm3 v)) := by
      field_simp
      ring
    rw [this, ← hsq, div_self (mul_pos ha ha).ne.symm, mul_one]
  linear_combination key + hcs

/-! ## Pitch and polar form -/

/-- The point `(x, y)` at distance `ρ > 0` from the origin has polar angle `atan2 y x`. -/
theorem atan2_polar {x y ρ : ℝ} (hρ : 0 < ρ) (h : x * x + y * y = ρ * ρ) :
    ρ * Real.cos (atan2 y x) = x ∧ ρ * Real.sin (atan2 y x) = y := by
  have habs : Complex.abs ⟨x, y⟩ = ρ := by
    rw [Complex.abs_apply, Complex.normSq_mk, h, Real.sqrt_mul_self hρ.le]
  have hx := Complex.abs_mul_cos_arg ⟨x, y⟩
  have hy := Complex.abs_mul_sin_arg ⟨x, y⟩
  rw [habs] at hx hy
  simp only at hx hy
  have key : atan2 y x = Complex.arg ⟨x, y⟩ := by
    have h2 := atan2_sin_cos hρ (Complex.neg_pi_lt_arg ⟨x, y⟩) (Complex.arg_le_pi ⟨x, y⟩)
    rwa [hx, hy] at h2
  rw [key]
  exact ⟨hx, hy⟩

/-- With a unit third row and `|a| < 1`, the pitch expression `atan(-a / sqrt(b² + c²))` has a
nonzero divisor and equals `arcsin (-a)`. -/
theorem atanQuot_eq_arcsin {a b c : ℝ} (hrow : a * a + b * b + c * c = 1) (ha : |a| < 1) :
    Real.sqrt (b * b + c * c) ≠ 0
      ∧ atanQuot (-a) (Real.sqrt (b * b + c * c))
          = some (Real.arctan (-a / Real.sqrt (b * b + c * c)))
      ∧ Real.arctan (-a / Real.sqrt (b * b + c * c)) = Real.arcsin (-a) := by
  obtain ⟨h1, h2⟩ := abs_lt.mp ha
  have hpos : 0 < b * b + c * c := by nlinarith
  have hne : Real.sqrt (b * b + c * c) ≠ 0 := (Real.sqrt_pos.mpr hpos).ne.symm
  refine ⟨hne, ?_, ?_⟩
  · unfold atanQuot
    rw [if_neg hne]
  · rw [Real.arcsin_eq_arctan ⟨by linarith, by linarith⟩]
    have : 1 - (-a) ^ 2 = b * b + c * c := by linear_combination (-1 : ℝ) * hrow
    rw [this]

/-- The result of `matrix2euler` once the pitch expression is known to be a number. -/
theorem matrix2euler_of_pitch {dcm : Matrix (Fin 3) (Fin 3) ℝ} {p : ℝ}
    (hp : atanQuot (-dcm 2 0) (Real.sqrt (dcm 2 1 * dcm 2 1 + dcm 2 2 * dcm 2 2)) = some p) :
    ∃ e, matrix2euler dcm = some e ∧ e 1 = p := by
  unfold matrix2euler
  rw [hp]
  exact ⟨_, rfl, by simp⟩

/-- A proper rotation matrix has a unit third row. -/
theorem row2_unit {m : Matrix (Fin 3) (Fin 3) ℝ} (h : IsProperRotation m) :
    m 2 0 * m 2 0 + m 2 1 * m 2 1 + m 2 2 * m 2 2 = 1 := by
  have := row_orth h 2 2
  simpa using this

/-- The angle `atan2` recovers from `(2 cos d, 2 sin d)` differs from `d` by a whole number of
turns. -/
theorem atan2_two_sin_cos (d : ℝ) :
    ∃ k : ℤ, atan2 (2 * Real.sin d) (2 * Real.cos d) = d + k * (2 * Real.pi) := by
  have hmem := toIocMod_mem_Ioc Real.two_pi_pos (-Real.pi) d
  have hdiv := self_sub_toIocMod Real.two_pi_pos (-Real.pi) d
  rw [zsmul_eq_mul] at hdiv
  have ha : toIocMod Real.two_pi_pos (-Real.pi) d
      = d - (toIocDiv Real.two_pi_pos (-Real.pi) d : ℝ) * (2 * Real.pi) := by linarith
  have hs : Real.sin (toIocMod Real.two_pi_pos (-Real.pi) d) = Real.sin d := by
    rw [ha, Real.sin_sub_int_mul_two_pi]
  have hc : Real.cos (toIocMod Real.two_pi_pos (-Real.pi) d) = Real.cos d := by
    rw [ha, Real.cos_sub_int_mul_two_pi]
  have h2 := atan2_sin_cos (r := 2) (a := toIocMod Real.two_pi_pos (-Real.pi) d) two_pos
    hmem.1 (by linarith [hmem.2])
  rw [hs, hc] at h2
  refine ⟨-toIocDiv Real.two_pi_pos (-Real.pi) d, ?_⟩
  rw [h2, ha]
  push_cast
  ring

/-- The ZYX direction-cosine entries of a proper rotation matrix, rebuilt from the polar forms
of its first column and third row, where `r` is the cosine of the pitch. -/
theorem zyx_entries_of_polar {m : Matrix (Fin 3) (Fin 3) ℝ} (h : IsProperRotation m)
    {r cr sr ch sh : ℝ} (hr : 0 < r) (hr2 : r * r = m 2 1 * m 2 1 + m 2 2 * m 2 2)
    (h1 : r * cr = m 2 2) (h2 : r * sr = m 2 1) (h3 : r * ch = m 0 0) (h4 : r * sh = m 1 0) :
    ch * -m 2 0 * sr - sh * cr = m 0 1
      ∧ ch * -m 2 0 * cr + sh * sr = m 0 2
      ∧ sh * -m 2 0 * sr + ch * cr = m 1 1
      ∧ sh * -m 2 0 * cr - ch * sr = m 1 2 := by
  have r02 := row_orth h 0 2
  have r12 := row_orth h 1 2
  simp only [Fin.reduceEq, if_false] at r02 r12
  obtain ⟨k00, -, -, k10, -⟩ := cofactor_eq h
  have hrr : r * r ≠ 0 := (mul_pos hr hr).ne.symm
  have p01 : m 0 0 * -m 2 0 * m 2 1 - m 1 0 * m 2 2
      = m 0 1 * (m 2 1 * m 2 1 + m 2 2 * m 2 2) := by
    linear_combination (-m 2 1) * r02 - m 2 2 * k10
  have p02 : m 0 0 * -m 2 0 * m 2 2 + m 1 0 * m 2 1
      = m 0 2 * (m 2 1 * m 2 1 + m 2 2 * m 2 2) := by
    linear_combination (-m 2 2) * r02 + m 2 1 * k10
  have p11 : m 1 0 * -m 2 0 * m 2 1 + m 0 0 * m 2 2
      = m 1 1 * (m 2 1 * m 2 1 + m 2 2 * m 2 2) := by
    linear_combination (-m 2 1) * r12 + m 2 2 * k00
  have p12 : m 1 0 * -m 2 0 * m 2 2 - m 0 0 * m 2 1
      = m 1 2 * (m 2 1 * m 2 1 + m 2 2 * m 2 2) := by
    linear_combination (-m 2 2) * r12 - m 2 1 * k00
  refine ⟨?_, ?_, ?_, ?_⟩
  · apply mul_left_cancel₀ hrr
    calc r * r * (ch * -m 2 0 * sr - sh * cr)
        = (r * ch) * -m 2 0 * (r * sr) - (r * sh) * (r * cr) := by ring
      _ = m 0 1 * (m 2 1 * m 2 1 + m 2 2 * m 2 2) := by rw [h1, h2, h3, h4, p01]
      _ = r * r * m 0 1 := by rw [hr2]; ring
  · apply mul_left_cancel₀ hrr
    calc r * r * (ch * -m 2 0 * cr + sh * sr)
        = (r * ch) * -m 2 0 * (r * cr) + (r * sh) * (r * sr) := by ring
      _ = m 0 2 * (m 2 1 * m 2 1 + m 2 2 * m 2 2) := by rw [h1, h2, h3, h4, p02]
      _ = r * r * m 0 2 := by rw [hr2]; ring
  · apply mul_left_cancel₀ hrr
    calc r * r * (sh * -m 2 0 * sr + ch * cr)
        = (r * sh) * -m 2 0 * (r * sr) + (r * ch) * (r * cr) := by ring
      _ = m 1 1 * (m 2 1 * m 2 1 + m 2 2 * m 2 2) := by rw [h1, h2, h3, h4, p11]
      _ = r * r * m 1 1 := by rw [hr2]; ring
  · apply mul_left_cancel₀ hrr
    calc r * r * (sh * -m 2 0 * cr - ch * sr)
        = (r * sh) * -m 2 0 * (r * cr) - (r * ch) * (r * sr) := by ring
      _ = m 1 2 * (m 2 1 * m 2 1 + m 2 2 * m 2 2) := by rw [h1, h2, h3, h4, p12]
      _ = r * r * m 1 2 := by rw [hr2]; ring

/-! ## Theorems -/

/-- C1: `skewSymmetric v` applied to `x` is the cross product `v × x`; `skewSymmetric 0` is the
zero matrix and `skewSymmetric v` applied to `v` is zero. -/
theorem skewSymmetric_mulVec_eq_cross {R : Type} [CommRing R] (v x : Fin 3 → R) :
    (skewSymmetric v).mulVec x = crossProduct v x
      ∧ skewSymmetric (0 : Fin 3 → R) = 0
      ∧ (skewSymmetric v).mulVec v = 0 := by
  refine ⟨?_, ?_, ?_⟩
  · ext i
    fin_cases i <;>
      simp [skewSymmetric, Matrix.mulVec, Matrix.dotProduct, Fin.sum_univ_three, cross_apply] <;>
      ring
  · ext i j
    fin_cases i <;> fin_cases j <;> simp [skewSymmetric, vecHead, vecTail]
  · ext i
    fin_cases i <;>
      simp [skewSymmetric, Matrix.mulVec, Matrix.dotProduct, Fin.sum_univ_three] <;>
      ring

/-- C2: for all quaternions `q`, `p`, `quaternionleft q` applied to `vec p` and
`quaternionright p` applied to `vec q` both equal the vectorised Hamilton product `q ⊗ p`. -/
theorem quaternionleft_right_hamilton {R : Type} [CommRing R] (q p : Quaterniond R) :
    (quaternionleft q).mulVec p.toVec4 = (q.hamilton p).toVec4
      ∧ (quaternionright p).mulVec q.toVec4 = (q.hamilton p).toVec4 := by
  constructor <;>
  · ext i
    fin_cases i <;>
      simp [quaternionleft_eq, quaternionright_eq, Quaterniond.hamilton,
        Quaterniond.toVec4, Quaterniond.vec, Matrix.mulVec, Matrix.dotProduct,
        Fin.sum_univ_four, Fin.sum_univ_three, cross_apply] <;>
      ring

/-- C4 (as stated, refuted): `-π` lies in `(-3π, 3π]`, yet `heading (-π) = -π`, which is not in
the half-open interval `(-π, π]`. -/
theorem heading_neg_pi_not_in_Ioc :
    -Real.pi ∈ Set.Ioc (-(3 * Real.pi)) (3 * Real.pi)
      ∧ heading (-Real.pi) = -Real.pi
      ∧ heading (-Real.pi) ∉ Set.Ioc (-Real.pi) Real.pi := by
  have hpi := Real.pi_pos
  have hval : heading (-Real.pi) = -Real.pi := by
    unfold heading
    rw [if_neg (lt_irrefl _), if_neg (by linarith)]
  refine ⟨⟨by linarith, by linarith⟩, hval, ?_⟩
  rw [hval]
  exact fun h => lt_irrefl _ h.1

/-- C4 (amended): for every `x` in `(-3π, 3π]`, `heading x` lies in the closed interval
`[-π, π]`, and it is strictly above `-π` unless `x = -π`. -/
theorem heading_mem_Icc (x : ℝ) (hlo : -(3 * Real.pi) < x) (hhi : x ≤ 3 * Real.pi) :
    -Real.pi ≤ heading x ∧ heading x ≤ Real.pi ∧ (x ≠ -Real.pi → -Real.pi < heading x) := by
  have hpi := Real.pi_pos
  unfold heading
  split_ifs with h1 h2
  · exact ⟨by linarith, by linarith, fun _ => by linarith⟩
  · exact ⟨by linarith, by linarith, fun _ => by linarith⟩
  · have h1' : -Real.pi ≤ x := not_lt.mp h1
    have h2' : x ≤ Real.pi := not_lt.mp h2
    exact ⟨h1', h2', fun hne => lt_of_le_of_ne h1' (Ne.symm hne)⟩

theorem heading_mem_Icc_witness :
    (-Real.pi ≤ heading 4 ∧ heading 4 ≤ Real.pi ∧ ((4 : ℝ) ≠ -Real.pi → -Real.pi < heading 4)) :=
  heading_mem_Icc 4 (by linarith [Real.pi_pos]) (by linarith [Real.pi_gt_three])

/-- C5: `heading` is the single-step wrap: `x - 2π` above `π`, `x + 2π` below `-π`, `x` itself
otherwise (in particular on `(-π, π]`); `heading 4 = 4 - 2π` and `heading (-4) = -4 + 2π`. -/
theorem heading_single_step (x : ℝ) :
    (Real.pi < x → heading x = x - 2 * Real.pi)
      ∧ (x < -Real.pi → heading x = x + 2 * Real.pi)
      ∧ (-Real.pi ≤ x → x ≤ Real.pi → heading x = x)
      ∧ (x ∈ Set.Ioc (-Real.pi) Real.pi → heading x = x)
      ∧ heading 4 = 4 - 2 * Real.pi
      ∧ heading (-4) = -4 + 2 * Real.pi := by
  have hpi := Real.pi_pos
  have h4 : Real.pi < 4 := by linarith [Real.pi_lt_d2]
  have hgt : ∀ y : ℝ, Real.pi < y → heading y = y - 2 * Real.pi := by
    intro y hy
    unfold heading
    rw [if_neg (by linarith), if_pos hy]
  have hlt : ∀ y : ℝ, y < -Real.pi → heading y = y + 2 * Real.pi := by
    intro y hy
    unfold heading
    rw [if_pos hy]
  have hmid : -Real.pi ≤ x → x ≤ Real.pi → heading x = x := by
    intro h1 h2
    unfold heading
    rw [if_neg (not_lt.mpr h1), if_neg (not_lt.mpr h2)]
  exact ⟨hgt x, hlt x, hmid, fun h => hmid h.1.le h.2, hgt 4 h4, hlt (-4) (by linarith)⟩

theorem heading_single_step_witness :
    heading 4 = 4 - 2 * Real.pi ∧ heading (-4) = -4 + 2 * Real.pi
      ∧ heading 1 = 1 :=
  ⟨(heading_single_step 4).1 (by linarith [Real.pi_lt_d2]),
   (heading_single_step (-4)).2.1 (by linarith [Real.pi_lt_d2]),
   (heading_single_step 1).2.2.1 (by linarith [Real.pi_pos]) (by linarith [Real.pi_gt_three])⟩

/-- C3 (the code at the failing input): the proper rotation by `-90°` about the Y axis has
`dcm(2,0) = 1`, so the second branch computes `π + atan2(0, -2) = 2π`; the wrap only tests
`< 0`, and `matrix2euler` returns roll `0`, pitch `-π/2` and heading `2π`, outside `[0, 2π)`. -/
theorem matrix2euler_heading_two_pi :
    IsProperRotation !![0, 0, -1; 0, 1, 0; 1, 0, 0]
      ∧ matrix2euler !![0, 0, -1; 0, 1, 0; 1, 0, 0]
          = some ![0, -(Real.pi / 2), 2 * Real.pi] := by
  have hpi := Real.pi_pos
  refine ⟨⟨?_, ?_⟩, ?_⟩
  · ext i j
    fin_cases i <;> fin_cases j <;>
      simp [Matrix.mul_apply, Fin.sum_univ_three, vecHead, vecTail]
  · simp [Matrix.det_fin_three, vecHead, vecTail]
  · have hpitch : atanQuot (-1) (Real.sqrt (0 * 0 + 0 * 0)) = some (-(Real.pi / 2)) := by
      simp [atanQuot]
    have hbr : ¬ ((1 : ℝ) ≤ -0.999) := by norm_num
    have hbr2 : (1 : ℝ) ≥ 0.999 := by norm_num
    have hat : atan2 (0 + 0) (-1 - 1) = Real.pi := by
      rw [add_zero]
      exact atan2_zero_of_neg (by norm_num)
    have hnot : ¬ (Real.pi + Real.pi < 0) := by linarith
    simp only [matrix2euler, Matrix.of_apply, Matrix.cons_val_zero, Matrix.cons_val_one,
      Matrix.cons_val_two, Matrix.head_cons, Matrix.tail_cons, hpitch, Option.map_some',
      if_neg hbr, if_pos hbr2, hat, atan2_zero_zero, if_neg hnot, two_mul]

/-- C6: away from gimbal lock the Euler round trip is exact: for roll in `(-π, π]`, pitch in
`(-π/2, π/2)` with `|sin pitch| < 0.999` and heading in `[0, 2π)`,
`matrix2euler (euler2matrix e)` returns `e`. -/
theorem matrix2euler_euler2matrix (e : Fin 3 → ℝ)
    (hroll : -Real.pi < e 0 ∧ e 0 ≤ Real.pi)
    (hpitch : -(Real.pi / 2) < e 1 ∧ e 1 < Real.pi / 2)
    (hsin : |Real.sin (e 1)| < 0.999)
    (hhead : 0 ≤ e 2 ∧ e 2 < 2 * Real.pi) :
    matrix2euler (euler2matrix e) = some e := by
  have hpi := Real.pi_pos
  have hc : 0 < Real.cos (e 1) := Real.cos_pos_of_mem_Ioo ⟨hpitch.1, hpitch.2⟩
  obtain ⟨hs1, hs2⟩ := abs_lt.mp hsin
  -- the entries of the matrix that the conversion reads
  have m00 : euler2matrix e 0 0 = Real.cos (e 1) * Real.cos (e 2) := by
    rw [euler2matrix_entries]; simp [mul_comm]
  have m10 : euler2matrix e 1 0 = Real.cos (e 1) * Real.sin (e 2) := by
    rw [euler2matrix_entries]; simp [mul_comm]
  have m20 : euler2matrix e 2 0 = -Real.sin (e 1) := by
    rw [euler2matrix_entries]; simp
  have m21 : euler2matrix e 2 1 = Real.cos (e 1) * Real.sin (e 0) := by
    rw [euler2matrix_entries]; simp
  have m22 : euler2matrix e 2 2 = Real.cos (e 1) * Real.cos (e 0) := by
    rw [euler2matrix_entries]; simp
  -- pitch
  have hden : Real.sqrt (Real.cos (e 1) * Real.sin (e 0) * (Real.cos (e 1) * Real.sin (e 0))
      + Real.cos (e 1) * Real.cos (e 0) * (Real.cos (e 1) * Real.cos (e 0))) = Real.cos (e 1) := by
    have : Real.cos (e 1) * Real.sin (e 0) * (Real.cos (e 1) * Real.sin (e 0))
        + Real.cos (e 1) * Real.cos (e 0) * (Real.cos (e 1) * Real.cos (e 0))
        = Real.cos (e 1) * Real.cos (e 1) := by
      linear_combination (Real.cos (e 1) * Real.cos (e 1)) * Real.sin_sq_add_cos_sq (e 0)
    rw [this, Real.sqrt_mul_self hc.le]
  have hp : atanQuot (Real.sin (e 1)) (Real.cos (e 1)) = some (e 1) := by
    unfold atanQuot
    rw [if_neg hc.ne.symm, ← Real.tan_eq_sin_div_cos, Real.arctan_tan hpitch.1 hpitch.2]
  -- the branch away from gimbal lock
  have hb1 : ¬ (-Real.sin (e 1) ≤ -0.999) := by
    intro h
    linarith
  have hb2 : ¬ (-Real.sin (e 1) ≥ 0.999) := by
    intro h
    linarith
  -- roll
  have hr : atan2 (Real.cos (e 1) * Real.sin (e 0)) (Real.cos (e 1) * Real.cos (e 0)) = e 0 :=
    atan2_sin_cos hc hroll.1 hroll.2
  -- heading
  have hh : (if atan2 (Real.cos (e 1) * Real.sin (e 2)) (Real.cos (e 1) * Real.cos (e 2)) < 0
      then Real.pi * 2 + atan2 (Real.cos (e 1) * Real.sin (e 2)) (Real.cos (e 1) * Real.cos (e 2))
      else atan2 (Real.cos (e 1) * Real.sin (e 2)) (Real.cos (e 1) * Real.cos (e 2))) = e 2 := by
    by_cases hle : e 2 ≤ Real.pi
    · rw [atan2_sin_cos hc (by linarith [hhead.1]) hle, if_neg (not_lt.mpr hhead.1)]
    · have hlt : Real.pi < e 2 := not_le.mp hle
      have hshift : atan2 (Real.cos (e 1) * Real.sin (e 2)) (Real.cos (e 1) * Real.cos (e 2))
          = e 2 - 2 * Real.pi := by
        rw [← Real.sin_sub_two_pi (e 2), ← Real.cos_sub_two_pi (e 2)]
        exact atan2_sin_cos hc (by linarith) (by linarith [hhead.2])
      rw [hshift, if_pos (by linarith [hhead.2])]
      ring
  unfold matrix2euler
  simp only [m00, m10, m20, m21, m22, neg_neg, hden, hp, Option.map_some', if_neg hb1,
    if_neg hb2, hr, hh, vec3_eta]

theorem matrix2euler_euler2matrix_witness :
    matrix2euler (euler2matrix ![Real.pi / 2, Real.pi / 6, Real.pi])
      = some ![Real.pi / 2, Real.pi / 6, Real.pi] :=
  matrix2euler_euler2matrix ![Real.pi / 2, Real.pi / 6, Real.pi]
    ⟨by simp only [Matrix.cons_val_zero]; linarith [Real.pi_pos],
     by simp only [Matrix.cons_val_zero]; linarith [Real.pi_pos]⟩
    ⟨by simp only [Matrix.cons_val_one, Matrix.head_cons]; linarith [Real.pi_pos],
     by simp only [Matrix.cons_val_one, Matrix.head_cons]; linarith [Real.pi_pos]⟩
    (by
      simp only [Matrix.cons_val_one, Matrix.head_cons, Real.sin_pi_div_six]
      rw [abs_of_pos (by norm_num)]
      norm_num)
    ⟨by simp only [Matrix.cons_val_two, Matrix.tail_cons, Matrix.head_cons]
        exact Real.pi_pos.le,
     by simp only [Matrix.cons_val_two, Matrix.tail_cons, Matrix.head_cons]
        linarith [Real.pi_pos]⟩

/-- C9: for every Euler triple, converting `euler2quaternion e` to a matrix gives exactly
`euler2matrix e`: both are built from the same product of the three angle-axis rotations. -/
theorem quaternion2matrix_euler2quaternion (e : Fin 3 → ℝ) :
    quaternion2matrix (euler2quaternion e) = euler2matrix e := by
  rfl

/-- C10: `euler2matrix e` is the product `Rz(heading) · Ry(pitch) · Rx(roll)` of the elementary
rotation matrices, and its entries are the ZYX direction-cosine matrix. -/
theorem euler2matrix_eq_rotZ_rotY_rotX (e : Fin 3 → ℝ) :
    euler2matrix e = rotZ (e 2) * rotY (e 1) * rotX (e 0)
      ∧ euler2matrix e =
        !![Real.cos (e 2) * Real.cos (e 1),
             Real.cos (e 2) * Real.sin (e 1) * Real.sin (e 0) - Real.sin (e 2) * Real.cos (e 0),
             Real.cos (e 2) * Real.sin (e 1) * Real.cos (e 0) + Real.sin (e 2) * Real.sin (e 0);
           Real.sin (e 2) * Real.cos (e 1),
             Real.sin (e 2) * Real.sin (e 1) * Real.sin (e 0) + Real.cos (e 2) * Real.cos (e 0),
             Real.sin (e 2) * Real.sin (e 1) * Real.cos (e 0) - Real.cos (e 2) * Real.sin (e 0);
           -Real.sin (e 1), Real.cos (e 1) * Real.sin (e 0), Real.cos (e 1) * Real.cos (e 0)] :=
  ⟨euler2matrix_eq_mul e, euler2matrix_entries e⟩

/-- C7: for every proper rotation matrix `m`, converting to a quaternion and back gives `m`. -/
theorem quaternion2matrix_matrix2quaternion (m : Matrix (Fin 3) (Fin 3) ℝ)
    (h : IsProperRotation m) : quaternion2matrix (matrix2quaternion m) = m := by
  have htr := Matrix.trace_fin_three m
  unfold quaternion2matrix matrix2quaternion
  by_cases ht : Matrix.trace m > 0
  · rw [qom_w m ht]
    exact toRotationMatrix_pivot_w h (by linarith)
  · have ht' : m 0 0 + m 1 1 + m 2 2 ≤ 0 := by rw [← htr]; exact not_lt.mp ht
    by_cases h2 : m 2 2 > m (if m 1 1 > m 0 0 then 1 else 0) (if m 1 1 > m 0 0 then 1 else 0)
    · rw [qom_z m ht h2]
      apply toRotationMatrix_pivot_z h
      by_cases h1 : m 1 1 > m 0 0
      · rw [if_pos h1] at h2
        linarith
      · rw [if_neg h1] at h2
        linarith
    · by_cases h1 : m 1 1 > m 0 0
      · rw [if_pos h1] at h2
        rw [qom_y m ht h1 h2]
        exact toRotationMatrix_pivot_y h (by linarith)
      · rw [if_neg h1] at h2
        rw [qom_x m ht h1 h2]
        exact toRotationMatrix_pivot_x h (by linarith)

theorem quaternion2matrix_matrix2quaternion_witness :
    quaternion2matrix (matrix2quaternion (1 : Matrix (Fin 3) (Fin 3) ℝ)) = 1 :=
  quaternion2matrix_matrix2quaternion 1 ⟨by simp, by simp⟩

/-- C8: for every unit quaternion `q`, converting to a matrix and back gives `q` or `-q`. -/
theorem matrix2quaternion_quaternion2matrix (q : Quaterniond ℝ) (hq : q.normSq = 1) :
    matrix2quaternion (quaternion2matrix q) = q
      ∨ matrix2quaternion (quaternion2matrix q) = q.neg := by
  obtain ⟨w, x, y, z⟩ := q
  simp only [Quaterniond.normSq] at hq
  unfold matrix2quaternion quaternion2matrix
  have e00 : toRotationMatrix (⟨w, x, y, z⟩ : Quaterniond ℝ) 0 0 = 1 - (2 * y * y + 2 * z * z) := by
    simp [toRotationMatrix]
  have e01 : toRotationMatrix (⟨w, x, y, z⟩ : Quaterniond ℝ) 0 1 = 2 * y * x - 2 * z * w := by
    simp [toRotationMatrix]
  have e02 : toRotationMatrix (⟨w, x, y, z⟩ : Quaterniond ℝ) 0 2 = 2 * z * x + 2 * y * w := by
    simp [toRotationMatrix]
  have e10 : toRotationMatrix (⟨w, x, y, z⟩ : Quaterniond ℝ) 1 0 = 2 * y * x + 2 * z * w := by
    simp [toRotationMatrix]
  have e11 : toRotationMatrix (⟨w, x, y, z⟩ : Quaterniond ℝ) 1 1 = 1 - (2 * x * x + 2 * z * z) := by
    simp [toRotationMatrix]
  have e12 : toRotationMatrix (⟨w, x, y, z⟩ : Quaterniond ℝ) 1 2 = 2 * z * y - 2 * x * w := by
    simp [toRotationMatrix]
  have e20 : toRotationMatrix (⟨w, x, y, z⟩ : Quaterniond ℝ) 2 0 = 2 * z * x - 2 * y * w := by
    simp [toRotationMatrix]
  have e21 : toRotationMatrix (⟨w, x, y, z⟩ : Quaterniond ℝ) 2 1 = 2 * z * y + 2 * x * w := by
    simp [toRotationMatrix]
  have e22 : toRotationMatrix (⟨w, x, y, z⟩ : Quaterniond ℝ) 2 2 = 1 - (2 * x * x + 2 * y * y) := by
    simp [toRotationMatrix]
  generalize toRotationMatrix (⟨w, x, y, z⟩ : Quaterniond ℝ) = m at *
  have htr := Matrix.trace_fin_three m
  by_cases ht : Matrix.trace m > 0
  · -- the scalar part is the pivot
    have hw : w ≠ 0 := by
      intro h0
      rw [htr, e00, e11, e22] at ht
      rw [h0] at hq
      linarith
    have hn : Matrix.trace m + 1 = 4 * (w * w) := by
      rw [htr, e00, e11, e22]
      linear_combination (-4 : ℝ) * hq
    rw [qom_w m ht]
    simp only [Quaterniond.neg, Quaterniond.mk.injEq]
    rcases pivot_sign hw hn with ⟨h0, hrest⟩ | ⟨h0, hrest⟩
    · exact Or.inl ⟨h0, hrest x _ (by rw [e21, e12]; ring), hrest y _ (by rw [e02, e20]; ring),
        hrest z _ (by rw [e10, e01]; ring)⟩
    · exact Or.inr ⟨h0, hrest x _ (by rw [e21, e12]; ring), hrest y _ (by rw [e02, e20]; ring),
        hrest z _ (by rw [e10, e01]; ring)⟩
  · have ht' : 4 * (w * w) ≤ 1 := by
      have := not_lt.mp ht
      rw [htr, e00, e11, e22] at this
      linarith
    by_cases h2 : m 2 2 > m (if m 1 1 > m 0 0 then 1 else 0) (if m 1 1 > m 0 0 then 1 else 0)
    · -- `z` is the pivot
      have hzz : 0 < z * z := by
        by_cases h1 : m 1 1 > m 0 0
        · rw [if_pos h1, e22, e11] at h2
          rw [e11, e00] at h1
          linarith
        · rw [if_neg h1, e22, e00] at h2
          rw [e11, e00] at h1
          linarith
      have hz : z ≠ 0 := by
        intro h0
        rw [h0] at hzz
        simp at hzz
      have hn : m 2 2 - m 0 0 - m 1 1 + 1 = 4 * (z * z) := by
        rw [e00, e11, e22]
        ring
      rw [qom_z m ht h2]
      simp only [Quaterniond.neg, Quaterniond.mk.injEq]
      rcases pivot_sign hz hn with ⟨h0, hrest⟩ | ⟨h0, hrest⟩
      · exact Or.inl ⟨hrest w _ (by rw [e10, e01]; ring), hrest x _ (by rw [e02, e20]; ring),
          hrest y _ (by rw [e12, e21]; ring), h0⟩
      · exact Or.inr ⟨hrest w _ (by rw [e10, e01]; ring), hrest x _ (by rw [e02, e20]; ring),
          hrest y _ (by rw [e12, e21]; ring), h0⟩
    · by_cases h1 : m 1 1 > m 0 0
      · -- `y` is the pivot
        rw [if_pos h1] at h2
        have hyy : 0 < y * y := by
          have h2' := not_lt.mp h2
          rw [e22, e11] at h2'
          rw [e11, e00] at h1
          linarith
        have hy : y ≠ 0 := by
          intro h0
          rw [h0] at hyy
          simp at hyy
        have hn : m 1 1 - m 2 2 - m 0 0 + 1 = 4 * (y * y) := by
          rw [e00, e11, e22]
          ring
        rw [qom_y m ht h1 h2]
        simp only [Quaterniond.neg, Quaterniond.mk.injEq]
        rcases pivot_sign hy hn with ⟨h0, hrest⟩ | ⟨h0, hrest⟩
        · exact Or.inl ⟨hrest w _ (by rw [e02, e20]; ring), hrest x _ (by rw [e01, e10]; ring),
            h0, hrest z _ (by rw [e21, e12]; ring)⟩
        · exact Or.inr ⟨hrest w _ (by rw [e02, e20]; ring), hrest x _ (by rw [e01, e10]; ring),
            h0, hrest z _ (by rw [e21, e12]; ring)⟩
      · -- `x` is the pivot
        rw [if_neg h1] at h2
        have hxx : 0 < x * x := by
          have h1' := not_lt.mp h1
          have h2' := not_lt.mp h2
          rw [e11, e00] at h1'
          rw [e22, e00] at h2'
          linarith
        have hx : x ≠ 0 := by
          intro h0
          rw [h0] at hxx
          simp at hxx
        have hn : m 0 0 - m 1 1 - m 2 2 + 1 = 4 * (x * x) := by
          rw [e00, e11, e22]
          ring
        rw [qom_x m ht h1 h2]
        simp only [Quaterniond.neg, Quaterniond.mk.injEq]
        rcases pivot_sign hx hn with ⟨h0, hrest⟩ | ⟨h0, hrest⟩
        · exact Or.inl ⟨hrest w _ (by rw [e21, e12]; ring), h0,
            hrest y _ (by rw [e10, e01]; ring), hrest z _ (by rw [e20, e02]; ring)⟩
        · exact Or.inr ⟨hrest w _ (by rw [e21, e12]; ring), h0,
            hrest y _ (by rw [e10, e01]; ring), hrest z _ (by rw [e20, e02]; ring)⟩

theorem matrix2quaternion_quaternion2matrix_witness :
    matrix2quaternion (quaternion2matrix (⟨0, 0, -1, 0⟩ : Quaterniond ℝ))
        = (⟨0, 0, -1, 0⟩ : Quaterniond ℝ)
      ∨ matrix2quaternion (quaternion2matrix (⟨0, 0, -1, 0⟩ : Quaterniond ℝ))
        = (⟨0, 0, -1, 0⟩ : Quaterniond ℝ).neg :=
  matrix2quaternion_quaternion2matrix ⟨0, 0, -1, 0⟩ (by simp [Quaterniond.normSq])

/-- C18: for all quaternions `q` and `p` the operator matrices commute,
`quaternionleft q * quaternionright p = quaternionright p * quaternionleft q`. -/
theorem quaternionleft_mul_quaternionright_comm {R : Type} [CommRing R] (q p : Quaterniond R) :
    quaternionleft q * quaternionright p = quaternionright p * quaternionleft q := by
  rw [quaternionleft_eq, quaternionright_eq]
  ext i j
  fin_cases i <;> fin_cases j <;>
    simp [Matrix.mul_apply, Fin.sum_univ_four] <;> ring

/-- C19: for every quaternion `q`, the transpose of each operator matrix times the matrix is
`‖q‖²` times the identity; for a unit quaternion both operator matrices are orthogonal. -/
theorem quaternionleft_right_transpose_mul {R : Type} [CommRing R] (q : Quaterniond R) :
    (quaternionleft q).transpose * quaternionleft q = q.normSq • (1 : Matrix (Fin 4) (Fin 4) R)
      ∧ (quaternionright q).transpose * quaternionright q
          = q.normSq • (1 : Matrix (Fin 4) (Fin 4) R)
      ∧ (q.normSq = 1 →
          (quaternionleft q).transpose * quaternionleft q = 1
            ∧ (quaternionright q).transpose * quaternionright q = 1) := by
  have hl : (quaternionleft q).transpose * quaternionleft q
      = q.normSq • (1 : Matrix (Fin 4) (Fin 4) R) := by
    rw [quaternionleft_eq]
    ext i j
    rw [Matrix.mul_apply, Fin.sum_univ_four]
    simp only [Matrix.transpose_apply, Matrix.smul_apply, Matrix.one_apply]
    fin_cases i <;> fin_cases j <;>
      simp [Quaterniond.normSq] <;> ring
  have hr : (quaternionright q).transpose * quaternionright q
      = q.normSq • (1 : Matrix (Fin 4) (Fin 4) R) := by
    rw [quaternionright_eq]
    ext i j
    rw [Matrix.mul_apply, Fin.sum_univ_four]
    simp only [Matrix.transpose_apply, Matrix.smul_apply, Matrix.one_apply]
    fin_cases i <;> fin_cases j <;>
      simp [Quaterniond.normSq] <;> ring
  refine ⟨hl, hr, fun h1 => ?_⟩
  rw [hl, hr, h1, one_smul]
  exact ⟨rfl, rfl⟩

theorem quaternionleft_right_transpose_mul_witness :
    (quaternionleft (⟨0, 1, 0, 0⟩ : Quaterniond ℤ)).transpose * quaternionleft ⟨0, 1, 0, 0⟩ = 1
      ∧ (quaternionright (⟨0, 1, 0, 0⟩ : Quaterniond ℤ)).transpose
          * quaternionright ⟨0, 1, 0, 0⟩ = 1 :=
  (quaternionleft_right_transpose_mul (⟨0, 1, 0, 0⟩ : Quaterniond ℤ)).2.2
    (by simp [Quaterniond.normSq])

/-- C20: for every Euler triple, without any range restriction, `euler2matrix e` is a proper
rotation matrix: its transpose times itself is the identity and its determinant is `1`. -/
theorem euler2matrix_isProperRotation (e : Fin 3 → ℝ) :
    IsProperRotation (euler2matrix e)
      ∧ (euler2matrix e).transpose * euler2matrix e = 1
      ∧ (euler2matrix e).det = 1 := by
  have h : IsProperRotation (euler2matrix e) := by
    rw [euler2matrix_eq_mul]
    exact isProperRotation_mul
      (isProperRotation_mul (isProperRotation_rotZ _) (isProperRotation_rotY _))
      (isProperRotation_rotX _)
  exact ⟨h, h.1, h.2⟩

/-- C13: for every nonzero rotation vector `v` with norm `a`, `rotvec2quaternion v` has scalar
part `cos (a / 2)` and vector part `sin (a / 2) * v / a`, and it has unit norm. -/
theorem rotvec2quaternion_eq_unit (v : Fin 3 → ℝ) (hv : v ≠ 0) :
    rotvec2quaternion v =
        ⟨Real.cos (norm3 v / 2), Real.sin (norm3 v / 2) * (v 0 / norm3 v),
          Real.sin (norm3 v / 2) * (v 1 / norm3 v), Real.sin (norm3 v / 2) * (v 2 / norm3 v)⟩
      ∧ (rotvec2quaternion v).normSq = 1 :=
  ⟨rotvec2quaternion_of_ne_zero hv, rotvec2quaternion_normSq hv⟩

theorem rotvec2quaternion_eq_unit_witness :
    rotvec2quaternion ![0, 0, 2] =
        ⟨Real.cos (norm3 ![0, 0, 2] / 2),
          Real.sin (norm3 ![0, 0, 2] / 2) * ((![0, 0, 2] : Fin 3 → ℝ) 0 / norm3 ![0, 0, 2]),
          Real.sin (norm3 ![0, 0, 2] / 2) * ((![0, 0, 2] : Fin 3 → ℝ) 1 / norm3 ![0, 0, 2]),
          Real.sin (norm3 ![0, 0, 2] / 2) * ((![0, 0, 2] : Fin 3 → ℝ) 2 / norm3 ![0, 0, 2])⟩
      ∧ (rotvec2quaternion ![0, 0, 2]).normSq = 1 :=
  rotvec2quaternion_eq_unit ![0, 0, 2] (by
    intro h
    have := congrFun h 2
    simp at this)

/-- C14: the identity case: `euler2matrix (0,0,0)` is the identity matrix, `euler2quaternion
(0,0,0)` is the identity quaternion `(1,0,0,0)`, and `quaternion2vector` of the identity
quaternion is the zero vector. -/
theorem identity_case :
    euler2matrix ![0, 0, 0] = 1
      ∧ euler2quaternion ![0, 0, 0] = ⟨1, 0, 0, 0⟩
      ∧ quaternion2vector ⟨1, 0, 0, 0⟩ = ![0, 0, 0] := by
  refine ⟨?_, ?_, ?_⟩
  · rw [euler2matrix_entries]
    ext i j
    fin_cases i <;> fin_cases j <;> simp [vecHead, vecTail]
  · simp [euler2quaternion, AngleAxisd.toQuaternion, Quaterniond.mul, unitX, unitY, unitZ]
  · have hn : norm3 (Quaterniond.vec (⟨1, 0, 0, 0⟩ : Quaterniond ℝ)) = 0 := by
      simp [norm3, Quaterniond.vec]
    unfold quaternion2vector AngleAxisd.ofQuaternion
    simp only [hn, ne_eq, not_true_eq_false, if_false, zero_mul]
    ext i
    fin_cases i <;> rfl

/-- C11: the rotation-vector round trip: for every `v` whose norm lies strictly between `0` and
`π`, `quaternion2vector (rotvec2quaternion v) = v`. -/
theorem quaternion2vector_rotvec2quaternion (v : Fin 3 → ℝ)
    (hpos : 0 < norm3 v) (hlt : norm3 v < Real.pi) :
    quaternion2vector (rotvec2quaternion v) = v := by
  have hv : v ≠ 0 := ne_zero_of_norm3_pos hpos
  have hsq := norm3_mul_self v
  have ha0 : norm3 v ≠ 0 := hpos.ne.symm
  have hs : 0 < Real.sin (norm3 v / 2) :=
    Real.sin_pos_of_pos_of_lt_pi (by linarith) (by linarith)
  have hc : 0 < Real.cos (norm3 v / 2) :=
    Real.cos_pos_of_mem_Ioo ⟨by linarith, by linarith⟩
  rw [rotvec2quaternion_of_ne_zero hv]
  -- the norm of the vector part is `sin (a / 2)`
  have hn : norm3 (Quaterniond.vec (⟨Real.cos (norm3 v / 2),
      Real.sin (norm3 v / 2) * (v 0 / norm3 v), Real.sin (norm3 v / 2) * (v 1 / norm3 v),
      Real.sin (norm3 v / 2) * (v 2 / norm3 v)⟩ : Quaterniond ℝ)) = Real.sin (norm3 v / 2) := by
    rw [norm3_vec]
    have : Real.sin (norm3 v / 2) * (v 0 / norm3 v) * (Real.sin (norm3 v / 2) * (v 0 / norm3 v))
        + Real.sin (norm3 v / 2) * (v 1 / norm3 v) * (Real.sin (norm3 v / 2) * (v 1 / norm3 v))
        + Real.sin (norm3 v / 2) * (v 2 / norm3 v) * (Real.sin (norm3 v / 2) * (v 2 / norm3 v))
        = Real.sin (norm3 v / 2) * Real.sin (norm3 v / 2) := by
      have h1 : Real.sin (norm3 v / 2) * (v 0 / norm3 v)
            * (Real.sin (norm3 v / 2) * (v 0 / norm3 v))
          + Real.sin (norm3 v / 2) * (v 1 / norm3 v) * (Real.sin (norm3 v / 2) * (v 1 / norm3 v))
          + Real.sin (norm3 v / 2) * (v 2 / norm3 v) * (Real.sin (norm3 v / 2) * (v 2 / norm3 v))
          = Real.sin (norm3 v / 2) * Real.sin (norm3 v / 2)
              * ((v 0 * v 0 + v 1 * v 1 + v 2 * v 2) / (norm3 v * norm3 v)) := by
        field_simp
        ring
      rw [h1, ← hsq, div_self (mul_pos hpos hpos).ne.symm, mul_one]
    rw [this, Real.sqrt_mul_self hs.le]
  -- the angle is recovered by `atan2`
  have hang : atan2 (Real.sin (norm3 v / 2)) |Real.cos (norm3 v / 2)| = norm3 v / 2 := by
    rw [abs_of_pos hc]
    have := atan2_sin_cos (r := 1) (a := norm3 v / 2) one_pos (by linarith) (by linarith)
    rwa [one_mul, one_mul] at this
  unfold quaternion2vector AngleAxisd.ofQuaternion
  simp only [hn, if_pos hs.ne.symm, if_neg (not_lt.mpr hc.le), hang]
  ext i
  fin_cases i <;>
    simp [Quaterniond.vec] <;>
    field_simp <;>
    ring

theorem quaternion2vector_rotvec2quaternion_witness :
    quaternion2vector (rotvec2quaternion ![0, 0, 2]) = ![0, 0, 2] := by
  have h : norm3 ![0, 0, 2] = 2 := by
    unfold norm3
    simp only [Matrix.cons_val_zero, Matrix.cons_val_one, Matrix.cons_val_two, Matrix.head_cons,
      Matrix.tail_cons, mul_zero, zero_add]
    exact Real.sqrt_mul_self (by norm_num)
  exact quaternion2vector_rotvec2quaternion ![0, 0, 2] (by rw [h]; norm_num)
    (by rw [h]; linarith [Real.pi_gt_three])

/-- C12: for a matrix whose third row has unit norm and with `|dcm(2,0)| < 1`, the pitch that
`matrix2euler` computes as `atan(-dcm(2,0) / sqrt(dcm(2,1)² + dcm(2,2)²))` equals
`arcsin(-dcm(2,0))`. -/
theorem matrix2euler_pitch_eq_arcsin (dcm : Matrix (Fin 3) (Fin 3) ℝ)
    (hrow : dcm 2 0 * dcm 2 0 + dcm 2 1 * dcm 2 1 + dcm 2 2 * dcm 2 2 = 1)
    (habs : |dcm 2 0| < 1) :
    ∃ e, matrix2euler dcm = some e
      ∧ e 1 = Real.arctan (-dcm 2 0 / Real.sqrt (dcm 2 1 * dcm 2 1 + dcm 2 2 * dcm 2 2))
      ∧ e 1 = Real.arcsin (-dcm 2 0) := by
  obtain ⟨-, hq, harc⟩ := atanQuot_eq_arcsin hrow habs
  obtain ⟨e, he, hp⟩ := matrix2euler_of_pitch hq
  exact ⟨e, he, hp, hp.trans harc⟩

theorem matrix2euler_pitch_eq_arcsin_witness :
    ∃ e, matrix2euler (1 : Matrix (Fin 3) (Fin 3) ℝ) = some e
      ∧ e 1 = Real.arctan (-(1 : Matrix (Fin 3) (Fin 3) ℝ) 2 0
          / Real.sqrt ((1 : Matrix (Fin 3) (Fin 3) ℝ) 2 1 * (1 : Matrix (Fin 3) (Fin 3) ℝ) 2 1
            + (1 : Matrix (Fin 3) (Fin 3) ℝ) 2 2 * (1 : Matrix (Fin 3) (Fin 3) ℝ) 2 2))
      ∧ e 1 = Real.arcsin (-(1 : Matrix (Fin 3) (Fin 3) ℝ) 2 0) :=
  matrix2euler_pitch_eq_arcsin 1 (by simp) (by simp)

/-- C15 (as stated, refuted): the rotation by `+90°` about the Y axis is a proper rotation
matrix whose pitch divisor `sqrt(dcm(2,1)² + dcm(2,2)²)` is zero; `matrix2euler` still returns
roll `0`, pitch `π/2` and heading `0` there. -/
theorem matrix2euler_divisor_zero :
    IsProperRotation !![0, 0, 1; 0, 1, 0; -1, 0, 0]
      ∧ Real.sqrt ((!![0, 0, 1; 0, 1, 0; -1, 0, 0] : Matrix (Fin 3) (Fin 3) ℝ) 2 1
            * (!![0, 0, 1; 0, 1, 0; -1, 0, 0] : Matrix (Fin 3) (Fin 3) ℝ) 2 1
          + (!![0, 0, 1; 0, 1, 0; -1, 0, 0] : Matrix (Fin 3) (Fin 3) ℝ) 2 2
            * (!![0, 0, 1; 0, 1, 0; -1, 0, 0] : Matrix (Fin 3) (Fin 3) ℝ) 2 2) = 0
      ∧ matrix2euler !![0, 0, 1; 0, 1, 0; -1, 0, 0] = some ![0, Real.pi / 2, 0] := by
  refine ⟨⟨?_, ?_⟩, ?_, ?_⟩
  · ext i j
    fin_cases i <;> fin_cases j <;>
      simp [Matrix.mul_apply, Fin.sum_univ_three, vecHead, vecTail]
  · simp [Matrix.det_fin_three, vecHead, vecTail]
  · simp [vecHead, vecTail]
  · have hpitch : atanQuot (- -1) (Real.sqrt (0 * 0 + 0 * 0)) = some (Real.pi / 2) := by
      simp [atanQuot]
    have hbr : (-1 : ℝ) ≤ -0.999 := by norm_num
    have hat : atan2 (0 - 0) (1 + 1) = 0 := by
      simp [atan2]
    simp only [matrix2euler, Matrix.of_apply, Matrix.cons_val_zero, Matrix.cons_val_one,
      Matrix.cons_val_two, Matrix.head_cons, Matrix.tail_cons, hpitch, Option.map_some',
      if_pos hbr, hat, atan2_zero_zero, lt_irrefl, if_false]

/-- C15 (amended): `matrix2euler` returns a triple (no NaN) for every proper rotation matrix;
the pitch divisor is zero exactly when `dcm(2,0)` is `-1` or `1`, and there the pitch is `π/2`
respectively `-π/2`. -/
theorem matrix2euler_defined (dcm : Matrix (Fin 3) (Fin 3) ℝ) (h : IsProperRotation dcm) :
    (∃ e, matrix2euler dcm = some e)
      ∧ (Real.sqrt (dcm 2 1 * dcm 2 1 + dcm 2 2 * dcm 2 2) = 0
          ↔ dcm 2 0 = -1 ∨ dcm 2 0 = 1)
      ∧ (dcm 2 0 = -1 → ∃ e, matrix2euler dcm = some e ∧ e 1 = Real.pi / 2)
      ∧ (dcm 2 0 = 1 → ∃ e, matrix2euler dcm = some e ∧ e 1 = -(Real.pi / 2)) := by
  have hrow := row2_unit h
  have hnn : 0 ≤ dcm 2 1 * dcm 2 1 + dcm 2 2 * dcm 2 2 :=
    add_nonneg (mul_self_nonneg _) (mul_self_nonneg _)
  have hiff : Real.sqrt (dcm 2 1 * dcm 2 1 + dcm 2 2 * dcm 2 2) = 0
      ↔ dcm 2 0 = -1 ∨ dcm 2 0 = 1 := by
    rw [Real.sqrt_eq_zero hnn]
    constructor
    · intro h0
      have : (dcm 2 0 + 1) * (dcm 2 0 - 1) = 0 := by linear_combination hrow - h0
      rcases mul_eq_zero.mp this with h1 | h1
      · exact Or.inl (by linarith)
      · exact Or.inr (by linarith)
    · rintro (h1 | h1) <;> rw [h1] at hrow <;> linarith
  have hneg : dcm 2 0 = -1 → ∃ e, matrix2euler dcm = some e ∧ e 1 = Real.pi / 2 := by
    intro h1
    apply matrix2euler_of_pitch
    unfold atanQuot
    rw [if_pos (hiff.mpr (Or.inl h1)), h1, if_pos (by norm_num)]
  have hpos : dcm 2 0 = 1 → ∃ e, matrix2euler dcm = some e ∧ e 1 = -(Real.pi / 2) := by
    intro h1
    apply matrix2euler_of_pitch
    unfold atanQuot
    rw [if_pos (hiff.mpr (Or.inr h1)), h1, if_neg (by norm_num), if_pos (by norm_num)]
  refine ⟨?_, hiff, hneg, hpos⟩
  by_cases hz : Real.sqrt (dcm 2 1 * dcm 2 1 + dcm 2 2 * dcm 2 2) = 0
  · rcases hiff.mp hz with h1 | h1
    · obtain ⟨e, he, -⟩ := hneg h1
      exact ⟨e, he⟩
    · obtain ⟨e, he, -⟩ := hpos h1
      exact ⟨e, he⟩
  · have hq : atanQuot (-dcm 2 0) (Real.sqrt (dcm 2 1 * dcm 2 1 + dcm 2 2 * dcm 2 2))
        = some (Real.arctan (-dcm 2 0 / Real.sqrt (dcm 2 1 * dcm 2 1 + dcm 2 2 * dcm 2 2))) := by
      unfold atanQuot
      rw [if_neg hz]
    obtain ⟨e, he, -⟩ := matrix2euler_of_pitch hq
    exact ⟨e, he⟩

theorem matrix2euler_defined_witness :
    ∃ e, matrix2euler (1 : Matrix (Fin 3) (Fin 3) ℝ) = some e :=
  (matrix2euler_defined 1 ⟨by simp, by simp⟩).1

/-- C17: gimbal lock at pitch `+90°`: for every roll `φ` and heading `ψ`, the matrix
`M = euler2matrix (φ, π/2, ψ)` has `M(2,0) = -1`, and `matrix2euler M` returns roll `0`,
pitch `π/2` and the heading `h = atan2(M(1,2) - M(0,1), M(0,2) + M(1,1))` wrapped into
`[0, 2π)`, which agrees with `ψ - φ` up to a multiple of `2π`. -/
theorem matrix2euler_gimbal_lock (φ ψ : ℝ) :
    euler2matrix ![φ, Real.pi / 2, ψ] 2 0 = -1
      ∧ ∃ h : ℝ, matrix2euler (euler2matrix ![φ, Real.pi / 2, ψ]) = some ![0, Real.pi / 2, h]
        ∧ h = (if atan2 (euler2matrix ![φ, Real.pi / 2, ψ] 1 2
                    - euler2matrix ![φ, Real.pi / 2, ψ] 0 1)
                  (euler2matrix ![φ, Real.pi / 2, ψ] 0 2
                    + euler2matrix ![φ, Real.pi / 2, ψ] 1 1) < 0
              then Real.pi * 2 + atan2 (euler2matrix ![φ, Real.pi / 2, ψ] 1 2
                    - euler2matrix ![φ, Real.pi / 2, ψ] 0 1)
                  (euler2matrix ![φ, Real.pi / 2, ψ] 0 2
                    + euler2matrix ![φ, Real.pi / 2, ψ] 1 1)
              else atan2 (euler2matrix ![φ, Real.pi / 2, ψ] 1 2
                    - euler2matrix ![φ, Real.pi / 2, ψ] 0 1)
                  (euler2matrix ![φ, Real.pi / 2, ψ] 0 2
                    + euler2matrix ![φ, Real.pi / 2, ψ] 1 1))
        ∧ 0 ≤ h ∧ h < 2 * Real.pi
        ∧ ∃ k : ℤ, h = ψ - φ + k * (2 * Real.pi) := by
  have hpi := Real.pi_pos
  have m20 : euler2matrix ![φ, Real.pi / 2, ψ] 2 0 = -1 := by
    rw [euler2matrix_entries]; simp
  have m21 : euler2matrix ![φ, Real.pi / 2, ψ] 2 1 = 0 := by
    rw [euler2matrix_entries]; simp
  have m22 : euler2matrix ![φ, Real.pi / 2, ψ] 2 2 = 0 := by
    rw [euler2matrix_entries]; simp
  have hy : euler2matrix ![φ, Real.pi / 2, ψ] 1 2 - euler2matrix ![φ, Real.pi / 2, ψ] 0 1
      = 2 * Real.sin (ψ - φ) := by
    rw [euler2matrix_entries, Real.sin_sub]; simp; ring
  have hx : euler2matrix ![φ, Real.pi / 2, ψ] 0 2 + euler2matrix ![φ, Real.pi / 2, ψ] 1 1
      = 2 * Real.cos (ψ - φ) := by
    rw [euler2matrix_entries, Real.cos_sub]; simp; ring
  obtain ⟨k, hk⟩ := atan2_two_sin_cos (ψ - φ)
  have hrange := atan2_mem_Ioc (2 * Real.sin (ψ - φ)) (2 * Real.cos (ψ - φ))
  have hpitch : atanQuot (- -1) (Real.sqrt (0 * 0 + 0 * 0)) = some (Real.pi / 2) := by
    simp [atanQuot]
  have hbr : (-1 : ℝ) ≤ -0.999 := by norm_num
  refine ⟨m20, _, ?_, rfl, ?_, ?_, ?_⟩
  · unfold matrix2euler
    simp only [m20, m21, m22, hpitch, Option.map_some', if_pos hbr, atan2_zero_zero]
  · rw [hy, hx]
    split_ifs with hneg
    · linarith [hrange.1]
    · exact not_lt.mp hneg
  · rw [hy, hx]
    split_ifs with hneg
    · linarith
    · linarith [hrange.2]
  · rw [hy, hx]
    split_ifs with hneg
    · refine ⟨k + 1, ?_⟩
      rw [hk]
      push_cast
      ring
    · exact ⟨k, hk⟩

/-- C16: away from gimbal lock the matrix to Euler conversion loses nothing: for every proper
rotation matrix `m` with `|m(2,0)| < 0.999`, `matrix2euler m` returns a triple `e` with
`euler2matrix e = m`. -/
theorem euler2matrix_matrix2euler (m : Matrix (Fin 3) (Fin 3) ℝ) (h : IsProperRotation m)
    (habs : |m 2 0| < 0.999) :
    ∃ e, matrix2euler m = some e ∧ euler2matrix e = m := by
  have hpi := Real.pi_pos
  have hrow := row2_unit h
  obtain ⟨hlo, hhi⟩ := abs_lt.mp habs
  have habs1 : |m 2 0| < 1 := lt_trans habs (by norm_num)
  obtain ⟨hne, hq, harc⟩ := atanQuot_eq_arcsin hrow habs1
  have hnn : 0 ≤ m 2 1 * m 2 1 + m 2 2 * m 2 2 :=
    add_nonneg (mul_self_nonneg _) (mul_self_nonneg _)
  have hr : 0 < Real.sqrt (m 2 1 * m 2 1 + m 2 2 * m 2 2) :=
    lt_of_le_of_ne (Real.sqrt_nonneg _) (Ne.symm hne)
  have hr2 : Real.sqrt (m 2 1 * m 2 1 + m 2 2 * m 2 2)
      * Real.sqrt (m 2 1 * m 2 1 + m 2 2 * m 2 2) = m 2 1 * m 2 1 + m 2 2 * m 2 2 :=
    Real.mul_self_sqrt hnn
  -- pitch
  have hsin : Real.sin (Real.arctan (-m 2 0 / Real.sqrt (m 2 1 * m 2 1 + m 2 2 * m 2 2)))
      = -m 2 0 := by
    rw [harc, Real.sin_arcsin (by linarith) (by linarith)]
  have hcos : Real.cos (Real.arctan (-m 2 0 / Real.sqrt (m 2 1 * m 2 1 + m 2 2 * m 2 2)))
      = Real.sqrt (m 2 1 * m 2 1 + m 2 2 * m 2 2) := by
    rw [harc, Real.cos_arcsin]
    congr 1
    linear_combination (-1 : ℝ) * hrow
  -- roll and heading in polar form
  obtain ⟨q1, q2⟩ := atan2_polar (x := m 2 2) (y := m 2 1) hr (by rw [hr2]; ring)
  have c00 := col_orth h 0 0
  simp only [if_true] at c00
  obtain ⟨q3, q4⟩ := atan2_polar (x := m 0 0) (y := m 1 0) hr
    (by rw [hr2]; linear_combination c00 - hrow)
  have hb1 : ¬ (m 2 0 ≤ -0.999) := by
    intro hle
    linarith
  have hb2 : ¬ (m 2 0 ≥ 0.999) := by
    intro hge
    linarith
  have hwc : Real.cos (if atan2 (m 1 0) (m 0 0) < 0 then Real.pi * 2 + atan2 (m 1 0) (m 0 0)
      else atan2 (m 1 0) (m 0 0)) = Real.cos (atan2 (m 1 0) (m 0 0)) := by
    split_ifs
    · rw [add_comm, mul_comm, Real.cos_add_two_pi]
    · rfl
  have hws : Real.sin (if atan2 (m 1 0) (m 0 0) < 0 then Real.pi * 2 + atan2 (m 1 0) (m 0 0)
      else atan2 (m 1 0) (m 0 0)) = Real.sin (atan2 (m 1 0) (m 0 0)) := by
    split_ifs
    · rw [add_comm, mul_comm, Real.sin_add_two_pi]
    · rfl
  obtain ⟨z01, z02, z11, z12⟩ := zyx_entries_of_polar h hr hr2 q1 q2 q3 q4
  refine ⟨![atan2 (m 2 1) (m 2 2),
      Real.arctan (-m 2 0 / Real.sqrt (m 2 1 * m 2 1 + m 2 2 * m 2 2)),
      if atan2 (m 1 0) (m 0 0) < 0 then Real.pi * 2 + atan2 (m 1 0) (m 0 0)
      else atan2 (m 1 0) (m 0 0)], ?_, ?_⟩
  · unfold matrix2euler
    simp only [hq, Option.map_some', if_neg hb1, if_neg hb2]
  · rw [euler2matrix_entries]
    simp only [Matrix.cons_val_zero, Matrix.cons_val_one, Matrix.cons_val_two, Matrix.head_cons,
      Matrix.tail_cons, hsin, hcos, hwc, hws]
    ext i j
    fin_cases i <;> fin_cases j
    · simpa [mul_comm] using q3
    · simpa using z01
    · simpa using z02
    · simpa [mul_comm] using q4
    · simpa using z11
    · simpa using z12
    · simp
    · simpa using q2
    · simpa using q1

theorem euler2matrix_matrix2euler_witness :
    ∃ e, matrix2euler (1 : Matrix (Fin 3) (Fin 3) ℝ) = some e ∧ euler2matrix e = 1 :=
  euler2matrix_matrix2euler 1 ⟨by simp, by simp⟩ (by
    simp only [ne_eq, Fin.reduceEq, not_false_eq_true, Matrix.one_apply_ne, abs_zero]
    norm_num)

end Rotation
